import Mathlib

/-!
# jiragoli: a verification development

A shallow embedding of the `jiragoli` client library (`jira.go`, `issues.go`,
`projects.go`, `users.go`) and of the filter loop of its command-line front
end (`cmd/jirago/main.go`), followed by theorems about them.

Go strings are byte sequences and are embedded as lists of bytes.  The parts
of Go's standard library the code calls are embedded next to it: bytewise
functions (`strings.HasPrefix`, `strings.Contains`, `strings.Trim`,
`url.QueryEscape`, `url.Values`, `fmt`'s `%d`, `sort.Sort`) as definitions,
and the ones that depend on Unicode tables, on the URL grammar or on the JSON
decoder (`strings.ToLower`, `strings.Title`, `url.Parse`, `URL.String`,
`json.Decoder.Decode`) as the fields of a structure `StdLib`, of which
`goStd` is a concrete instance.
-/

namespace Jiragoli

/-! ## Go strings -/

/-- A byte. -/
abbrev Byte := Fin 256

/-- A Go `string`: an immutable sequence of bytes. -/
abbrev GoString := List Byte

/-- The Go string with the bytes of an ASCII literal. -/
def go (s : String) : GoString := s.data.map (fun c => Fin.ofNat c.toNat)

/-- Go's `strings.HasPrefix(s, prefix)`: bytewise. -/
def HasPrefix (s pre : GoString) : Bool := pre.isPrefixOf s

/-- Go's `strings.Contains(s, substr)`: `substr` occurs in `s`, bytewise. -/
def Contains : GoString → GoString → Bool
  | [], substr => substr.isEmpty
  | c :: s, substr => substr.isPrefixOf (c :: s) || Contains s substr

/-- Drops the leading bytes equal to `c`. -/
def trimLeftByte (c : Byte) : GoString → GoString
  | [] => []
  | b :: s => if b = c then trimLeftByte c s else b :: s

/-- Drops the trailing bytes equal to `c`. -/
def trimRightByte (c : Byte) (s : GoString) : GoString :=
  (trimLeftByte c s.reverse).reverse

/-- Go's `strings.Trim(s, cutset)` for a cutset of one ASCII byte, as in
`strings.Trim(..., " ")`: all leading and trailing occurrences of that byte
are removed. -/
def TrimByte (s : GoString) (c : Byte) : GoString :=
  trimRightByte c (trimLeftByte c s)

/-- The bytes `A` to `Z`. -/
def isUpperASCII (b : Byte) : Bool := decide (65 ≤ b.val ∧ b.val ≤ 90)

/-- The bytes `a` to `z`. -/
def isLowerASCII (b : Byte) : Bool := decide (97 ≤ b.val ∧ b.val ≤ 122)

/-- The bytes `0` to `9`. -/
def isDigitASCII (b : Byte) : Bool := decide (48 ≤ b.val ∧ b.val ≤ 57)

/-- A string all of whose bytes are below 0x80. -/
def isASCII (s : GoString) : Bool := s.all (fun b => decide (b.val < 128))

/-- Lower-cases one ASCII byte. -/
def lowerByte (b : Byte) : Byte := if isUpperASCII b then b + 32 else b

/-- Upper-cases one ASCII byte. -/
def upperByte (b : Byte) : Byte := if isLowerASCII b then b - 32 else b

/-- What `strings.ToLower` does to a string of ASCII bytes (its fast path):
`A` to `Z` become `a` to `z`, every other byte is kept. -/
def lowerASCII (s : GoString) : GoString := s.map lowerByte

/-- Go's `isSeparator` of `strings.Title`, on an ASCII byte: alphanumerics and
the underscore are not separators, every other ASCII byte is. -/
def isSeparatorASCII (b : Byte) : Bool :=
  !(isDigitASCII b || isLowerASCII b || isUpperASCII b || b = 95)

/-- The loop of `strings.Title` on ASCII bytes: `prev` is the previous byte
(a space before the first one); a byte that follows a separator is mapped to
its title case, any other byte is kept. -/
def titleFrom (prev : Byte) : GoString → GoString
  | [] => []
  | b :: s => (if isSeparatorASCII prev then upperByte b else b) :: titleFrom b s

/-- What `strings.Title` does to a string of ASCII bytes. -/
def titleASCII (s : GoString) : GoString := titleFrom 32 s

/-! ## `fmt`: the verb `%d` -/

/-- The decimal digits of `n`, most significant first, prepended to `acc`;
`fuel` bounds the number of digits. -/
def decimalDigits : Nat → Nat → GoString → GoString
  | 0, _, acc => acc
  | fuel + 1, n, acc =>
    if n / 10 = 0 then Fin.ofNat (48 + n % 10) :: acc
    else decimalDigits fuel (n / 10) (Fin.ofNat (48 + n % 10) :: acc)

/-- The rendering of a natural number by `%d`. -/
def formatNat (n : Nat) : GoString := decimalDigits (n + 1) n []

/-- The rendering of an `int` by `%d`: a minus sign for a negative number,
then the decimal digits of its magnitude. -/
def formatInt : Int → GoString
  | Int.ofNat n => formatNat n
  | Int.negSucc n => 45 :: formatNat (n + 1)

/-- The number a text of decimal digits denotes. -/
def decimalValue (s : GoString) : Nat := s.foldl (fun n b => 10 * n + (b.val - 48)) 0

/-! ## `net/url`: query escaping and `url.Values` -/

/-- Go's `shouldEscape(c, encodeQueryComponent)`: only the unreserved bytes
(alphanumerics and `-`, `_`, `.`, `~`) are left as they are. -/
def shouldEscapeQuery (c : Byte) : Bool :=
  !(isLowerASCII c || isUpperASCII c || isDigitASCII c
    || c = 45 || c = 95 || c = 46 || c = 126)

/-- The digit `"0123456789ABCDEF"[n]`. -/
def upperhex (n : Nat) : Byte := if n < 10 then Fin.ofNat (48 + n) else Fin.ofNat (55 + n)

/-- Go's `ishex`. -/
def ishex (c : Byte) : Bool :=
  isDigitASCII c || decide (97 ≤ c.val ∧ c.val ≤ 102) || decide (65 ≤ c.val ∧ c.val ≤ 70)

/-- Go's `unhex`. -/
def unhex (c : Byte) : Nat :=
  if isDigitASCII c then c.val - 48
  else if 97 ≤ c.val ∧ c.val ≤ 102 then c.val - 97 + 10
  else if 65 ≤ c.val ∧ c.val ≤ 70 then c.val - 65 + 10
  else 0

/-- Go's `url.QueryEscape`: a space becomes `+`, any other byte that
`shouldEscape` names becomes `%XX` with upper-case hex digits. -/
def QueryEscape : GoString → GoString
  | [] => []
  | c :: s =>
    if c = 32 then 43 :: QueryEscape s
    else if shouldEscapeQuery c then
      37 :: upperhex (c.val / 16) :: upperhex (c.val % 16) :: QueryEscape s
    else c :: QueryEscape s

/-- Go's `unescape`, with `fuel` at least the length of the input (one unit
is spent per byte or escape read): `%XX` becomes the byte it names (and is an
error unless two hex digits follow); when `plus` is set (the query-component
mode) `+` becomes a space. `none` is the `EscapeError`. -/
def unescapeFuel (plus : Bool) : Nat → GoString → Option GoString
  | _, [] => some []
  | 0, _ :: _ => none
  | fuel + 1, c :: s =>
    if c = 37 then
      match s with
      | h1 :: h2 :: rest =>
        if ishex h1 && ishex h2 then
          (unescapeFuel plus fuel rest).map
            (fun t => Fin.ofNat (unhex h1 * 16 + unhex h2) :: t)
        else none
      | _ => none
    else if c = 43 && plus then (unescapeFuel plus fuel s).map (fun t => 32 :: t)
    else (unescapeFuel plus fuel s).map (fun t => c :: t)

/-- Go's `url.QueryUnescape`. -/
def QueryUnescape (s : GoString) : Option GoString := unescapeFuel true s.length s

/-- Go's `url.Values`, a map from keys to lists of values, as an association
list with distinct keys. -/
abbrev Values := List (GoString × List GoString)

/-- Go's `Values.Set(key, value)`: the key's values are replaced by the one
value. -/
def Values.Set : Values → GoString → GoString → Values
  | [], key, value => [(key, [value])]
  | (k, vs) :: m, key, value =>
    if k = key then (k, [value]) :: m else (k, vs) :: Values.Set m key value

/-- Go's `Values.Get(key)`: the first value of the key, or the empty string. -/
def Values.Get : Values → GoString → GoString
  | [], _ => []
  | (k, vs) :: m, key => if k = key then vs.headD [] else Values.Get m key

/-- Appends `value` to the values of `key`: `m[key] = append(m[key], value)`. -/
def Values.Add : Values → GoString → GoString → Values
  | [], key, value => [(key, [value])]
  | (k, vs) :: m, key, value =>
    if k = key then (k, vs ++ [value]) :: m else (k, vs) :: Values.Add m key value

/-- The pairs `key=value` of one key in `Values.Encode`, each preceded by `&`
unless the buffer is still empty. -/
def encodeKey (keyEscaped : GoString) : List GoString → GoString → GoString
  | [], buf => buf
  | v :: vs, buf =>
    encodeKey keyEscaped vs
      ((if buf.isEmpty then buf else buf ++ [38]) ++ keyEscaped ++ [61] ++ QueryEscape v)

/-- Go's `Values.Encode`: `key=value` pairs, both escaped, joined by `&`,
the keys in sorted order; the empty string for an empty map. -/
def Values.Encode (v : Values) : GoString :=
  (v.insertionSort (fun a b => a.1 ≤ b.1)).foldl
    (fun buf kv => encodeKey (QueryEscape kv.1) kv.2 buf) []

/-- The text before the first `sep` and the text after it, as
`strings.Cut` returns them (the whole text and the empty string when there is
no `sep`). -/
def cutByte (sep : Byte) : GoString → GoString × GoString
  | [] => ([], [])
  | c :: s => if c = sep then ([], s) else ((cutByte sep s).1.cons c, (cutByte sep s).2)

/-- The pieces of `s` between the occurrences of `sep`. -/
def splitByte (sep : Byte) : GoString → List GoString
  | [] => [[]]
  | c :: s =>
    if c = sep then [] :: splitByte sep s
    else match splitByte sep s with
      | [] => [[c]]
      | p :: ps => (c :: p) :: ps

/-- One round of the loop of Go's `parseQuery` on the piece `key` of the
query: pieces with a semicolon or a bad escape are skipped and set the error
flag, an empty piece is skipped, any other adds one value under its key. -/
def parseQueryPiece (acc : Values × Bool) (key : GoString) : Values × Bool :=
  if key.contains 59 then (acc.1, true)
  else if key.isEmpty then acc
  else
    match QueryUnescape (cutByte 61 key).1, QueryUnescape (cutByte 61 key).2 with
    | some k, some v => (Values.Add acc.1 k v, acc.2)
    | _, _ => (acc.1, true)

/-- Go's `url.ParseQuery`: the values found, and whether an error was met. -/
def ParseQuery (query : GoString) : Values × Bool :=
  (splitByte 38 query).foldl parseQueryPiece ([], false)

/-! ## Errors and runtime faults -/

/-- A run-time panic of the Go program. -/
inductive Panic
  | nilDereference
  | indexOutOfRange
  deriving DecidableEq, Repr

/-- A Go `error` value. `ErrProjectIDType` is the sentinel declared in
`jira.go`; `errorf format arg` is the value `fmt.Errorf(format, arg)` builds;
`library text` is an error made by a library (the HTTP client, the JSON
decoder, the URL parser). -/
inductive GoError
  | ErrProjectIDType
  | errorf (format arg : GoString)
  | library (text : GoString)
  deriving DecidableEq, Repr

deriving instance DecidableEq for Except

/-! ## `net/url`: URLs -/

/-- Go's `url.Userinfo`. -/
structure Userinfo where
  username : GoString
  password : GoString
  passwordSet : Bool
  deriving DecidableEq, Repr

/-- Go's `url.URL` (the fields `ForceQuery`, `OmitHost` and `RawFragment`
left out). -/
structure URL where
  Scheme : GoString := []
  Opaque : GoString := []
  User : Option Userinfo := none
  Host : GoString := []
  Path : GoString := []
  RawPath : GoString := []
  RawQuery : GoString := []
  Fragment : GoString := []
  deriving DecidableEq, Repr

/-- Go's `shouldEscape(c, encodePath)`: only `?` among the reserved bytes. -/
def shouldEscapePath (c : Byte) : Bool :=
  !(isLowerASCII c || isUpperASCII c || isDigitASCII c
    || c = 45 || c = 95 || c = 46 || c = 126
    || c = 36 || c = 38 || c = 43 || c = 44 || c = 47 || c = 58 || c = 59 || c = 61 || c = 64)

/-- Go's `shouldEscape(c, encodeHost)`. -/
def shouldEscapeHost (c : Byte) : Bool :=
  !(isLowerASCII c || isUpperASCII c || isDigitASCII c
    || c = 33 || c = 36 || c = 38 || c = 39 || c = 40 || c = 41 || c = 42 || c = 43
    || c = 44 || c = 59 || c = 61 || c = 58 || c = 91 || c = 93 || c = 60 || c = 62 || c = 34
    || c = 45 || c = 95 || c = 46 || c = 126)

/-- Go's `shouldEscape(c, encodeUserPassword)`. -/
def shouldEscapeUserPassword (c : Byte) : Bool :=
  !(isLowerASCII c || isUpperASCII c || isDigitASCII c
    || c = 45 || c = 95 || c = 46 || c = 126
    || c = 36 || c = 38 || c = 43 || c = 44 || c = 59 || c = 61)

/-- Go's `shouldEscape(c, encodeFragment)`. -/
def shouldEscapeFragment (c : Byte) : Bool :=
  !(isLowerASCII c || isUpperASCII c || isDigitASCII c
    || c = 45 || c = 95 || c = 46 || c = 126
    || c = 36 || c = 38 || c = 43 || c = 44 || c = 47 || c = 58 || c = 59 || c = 61
    || c = 63 || c = 64 || c = 33 || c = 40 || c = 41 || c = 42)

/-- Go's `escape(s, mode)` for a mode other than the query component: the
bytes that `shouldEscape` names for the mode become `%XX`. -/
def escapeBytes (shouldEscape : Byte → Bool) : GoString → GoString
  | [] => []
  | c :: s =>
    if shouldEscape c then
      37 :: upperhex (c.val / 16) :: upperhex (c.val % 16) :: escapeBytes shouldEscape s
    else c :: escapeBytes shouldEscape s

/-- Go's `escape(s, encodePath)`. -/
def escapePath (s : GoString) : GoString := escapeBytes shouldEscapePath s

/-- Go's `stringContainsCTLByte`. -/
def stringContainsCTLByte (s : GoString) : Bool :=
  s.any (fun b => decide (b.val < 32 ∨ b.val = 127))

/-- The loop of Go's `getScheme`: `first` says whether the byte at hand is
the first one, `acc` holds the bytes read so far, last first. `none` is the
error `missing protocol scheme`; otherwise the scheme and the rest. -/
def getSchemeLoop (rawURL : GoString) : Bool → GoString → GoString → Option (GoString × GoString)
  | _, _, [] => some ([], rawURL)
  | first, acc, c :: s =>
    if isLowerASCII c || isUpperASCII c then getSchemeLoop rawURL false (c :: acc) s
    else if isDigitASCII c || c = 43 || c = 45 || c = 46 then
      if first then some ([], rawURL) else getSchemeLoop rawURL false (c :: acc) s
    else if c = 58 then
      if first then none else some (acc.reverse, s)
    else some ([], rawURL)

/-- Go's `getScheme`. -/
def getScheme (rawURL : GoString) : Option (GoString × GoString) :=
  getSchemeLoop rawURL true [] rawURL

/-- Go's `validOptionalPort`: empty, or a colon followed by digits. -/
def validOptionalPort : GoString → Bool
  | [] => true
  | c :: s => c = 58 && s.all isDigitASCII

/-- The text from the last `sep` on, if there is one. -/
def fromLastByte (sep : Byte) : GoString → Option GoString
  | [] => none
  | c :: s =>
    match fromLastByte sep s with
    | some t => some t
    | none => if c = sep then some (c :: s) else none

/-- The checks of Go's `unescape(s, encodeHost)` on a host without a `%`:
every ASCII byte must be one that `shouldEscape` leaves alone. A host with a
`%` is refused here (the library admits `%25` and escapes of non-ASCII
bytes). -/
def validHost (host : GoString) : Bool :=
  host.all (fun c => c ≠ 37 && !(decide (c.val < 128) && shouldEscapeHost c))

/-- Go's `parseHost` for hosts that are not IPv6 literals: the text after the
last colon must be a port, and the bytes must be valid in a host. -/
def parseHost (host : GoString) : Option GoString :=
  if HasPrefix host [91] then none
  else
    match fromLastByte 58 host with
    | some colonPort => if validOptionalPort colonPort && validHost host then some host else none
    | none => if validHost host then some host else none

/-- Go's `parseAuthority` for an authority without userinfo (one with an `@`
is refused here). -/
def parseAuthority (authority : GoString) : Option GoString :=
  if authority.contains 64 then none else parseHost authority

/-- Go's `URL.setPath`: the path is unescaped, and the raw path is kept when
it is not the default encoding of the path. -/
def setPath (u : URL) (p : GoString) : Option URL :=
  match unescapeFuel false p.length p with
  | none => none
  | some path => some { u with Path := path, RawPath := if escapePath path = p then [] else p }

/-- Go's `parse(rawURL, false)`, the URL without its fragment. `none` is an
error. -/
def parseURL (rawURL : GoString) : Option URL :=
  if stringContainsCTLByte rawURL then none
  else if rawURL = [42] then some { Path := [42] }
  else
    match getScheme rawURL with
    | none => none
    | some (scheme, rest) =>
      let scheme := lowerASCII scheme
      let rest' := (cutByte 63 rest).1
      let rawQuery := (cutByte 63 rest).2
      if !HasPrefix rest' [47] && scheme ≠ [] then
        some { Scheme := scheme, Opaque := rest', RawQuery := rawQuery }
      else if !HasPrefix rest' [47] && ((cutByte 47 rest').1).contains 58 then none
      else if (scheme ≠ [] || !HasPrefix rest' [47, 47, 47]) && HasPrefix rest' [47, 47] then
        let authority := (cutByte 47 (rest'.drop 2)).1
        let path := (rest'.drop 2).drop authority.length
        match parseAuthority authority with
        | none => none
        | some host => setPath { Scheme := scheme, Host := host, RawQuery := rawQuery } path
      else setPath { Scheme := scheme, RawQuery := rawQuery } rest'

/-- A model of Go's `url.Parse`: the fragment is cut off and unescaped, the
rest goes through `parse`. It follows the library for URLs without userinfo
and without an IPv6 literal or a `%` in the host, and refuses the others. -/
def urlParse (rawURL : GoString) : Except GoError URL :=
  match parseURL (cutByte 35 rawURL).1, unescapeFuel false rawURL.length (cutByte 35 rawURL).2 with
  | some u, some frag => .ok { u with Fragment := frag }
  | _, _ => .error (.library (go "parse error"))

/-- Go's `validEncoded(s, encodePath)`. -/
def validEncodedPath (s : GoString) : Bool :=
  s.all (fun c =>
    c = 33 || c = 36 || c = 38 || c = 39 || c = 40 || c = 41 || c = 42 || c = 43 || c = 44
    || c = 59 || c = 61 || c = 58 || c = 64 || c = 91 || c = 93 || c = 37
    || !shouldEscapePath c)

/-- Go's `URL.EscapedPath`: the raw path when it is a valid encoding of the
path, the default encoding of the path otherwise. -/
def EscapedPath (u : URL) : GoString :=
  if u.RawPath ≠ [] && validEncodedPath u.RawPath
      && unescapeFuel false u.RawPath.length u.RawPath = some u.Path then u.RawPath
  else if u.Path = [42] then [42]
  else escapePath u.Path

/-- Go's `Userinfo.String`: the escaped user name, and the escaped password
after a colon when one is set. -/
def Userinfo.String (i : Userinfo) : GoString :=
  escapeBytes shouldEscapeUserPassword i.username
  ++ (if i.passwordSet then 58 :: escapeBytes shouldEscapeUserPassword i.password else [])

/-- The part of Go's `URL.String` between the scheme and the path: `//`, the
user information and the host, when there is one of them. -/
def authorityString (u : URL) : GoString :=
  if u.Scheme ≠ [] || u.Host ≠ [] || u.User.isSome then
    (if u.Host ≠ [] || u.Path ≠ [] || u.User.isSome then [47, 47] else [])
    ++ (match u.User with
        | none => []
        | some i => i.String ++ [64])
    ++ escapeBytes shouldEscapeHost u.Host
  else []

/-- The path as Go's `URL.String` writes it after `before`: with a slash
before a path that does not begin with one when there is a host, and with
`./` before a first segment with a colon when nothing is written yet. -/
def pathString (u : URL) (before : GoString) : GoString :=
  (if EscapedPath u ≠ [] && (EscapedPath u).head? ≠ some 47 && u.Host ≠ [] then [47] else [])
  ++ (if before = [] && ((cutByte 47 (EscapedPath u)).1).contains 58 then [46, 47] else [])
  ++ EscapedPath u

/-- A model of Go's `URL.String`: the scheme, then the opaque part or the
authority and the path, then the query and the fragment. -/
def urlString (u : URL) : GoString :=
  (if u.Scheme = [] then [] else u.Scheme ++ [58])
  ++ (if u.Opaque ≠ [] then u.Opaque
      else
        authorityString u
        ++ pathString u ((if u.Scheme = [] then [] else u.Scheme ++ [58]) ++ authorityString u))
  ++ (if u.RawQuery = [] then [] else 63 :: u.RawQuery)
  ++ (if u.Fragment = [] then [] else 35 :: escapeBytes shouldEscapeFragment u.Fragment)

/-! ## The data model (`projects.go`, `users.go`, `issues.go`) -/

/-- The struct `JIRAProject` of `projects.go`. -/
structure JIRAProject where
  ID : GoString
  Key : GoString
  Name : GoString
  deriving DecidableEq, Repr

/-- The type `JIRAProjects` of `projects.go`, a slice of pointers: `none` is
a nil pointer, which the JSON decoder stores for a `null` element. -/
abbrev JIRAProjects := List (Option JIRAProject)

/-- The struct `JIRAUser` of `users.go`. -/
structure JIRAUser where
  Name : GoString
  Email : GoString
  UserURL : GoString
  deriving DecidableEq, Repr

/-- Modelled from the spec: the struct `JIRAStatus`, whose declaration is not
among the source files; the specification gives it a name and a description,
and `jira_test.go` builds it with the fields `Name` and `Description`. -/
structure JIRAStatus where
  Name : GoString
  Description : GoString
  deriving DecidableEq, Repr

/-- Go's `time.Time`, as the instant it denotes (a count of time units since
the epoch). -/
structure Time where
  instant : Int
  deriving DecidableEq, Repr

/-- Go's `Time.Before`. -/
def Time.Before (t u : Time) : Bool := decide (t.instant < u.instant)

/-- The struct `JIRAIssue` of `issues.go`; a nil `IssueURL` is `none`. -/
structure JIRAIssue where
  Key : GoString
  Summary : GoString
  Description : GoString
  Labels : List GoString
  Assignee : JIRAUser
  Reporter : JIRAUser
  IssueURL : Option URL
  CreatedAt : Time
  UpdatedAt : Time
  JIRAStatus : JIRAStatus
  deriving DecidableEq, Repr

/-- The type `JIRAIssues` of `issues.go`. Its elements are pointers; the
slices the code sorts hold only pointers it has already dereferenced
(`Issues`) or taken from a literal (`TestIssuesSort`), so an element is the
issue pointed to. -/
abbrev JIRAIssues := List JIRAIssue

/-! ## The standard library functions taken as parameters -/

/-- An HTTP response: the fields of `http.Response` the code reads. -/
structure Response where
  StatusCode : Nat
  Status : GoString
  Body : GoString
  deriving DecidableEq, Repr

/-- The method `Get` of an `http.Client`: the outcome of a GET of the given
URL, an error or a response. -/
abbrev Client := GoString → Except GoError Response

/-- One record of the search result envelope that `Issues` decodes: the
record's key and its `fields` payload, a pointer that is nil (`none`) when
the payload is absent or `null`. -/
structure SearchRecord where
  Key : GoString
  JIRAIssue : Option JIRAIssue
  deriving DecidableEq, Repr

/-- The standard library functions whose result depends on Unicode tables, on
the URL grammar or on the JSON decoder. The first two are fixed on ASCII
text, where Go documents what they do. `DecodeProjects` and `DecodeSearch`
are `json.NewDecoder(body).Decode` into a `JIRAProjects` and into the search
result envelope. -/
structure StdLib where
  ToLower : GoString → GoString
  Title : GoString → GoString
  Parse : GoString → Except GoError URL
  URLString : URL → GoString
  DecodeProjects : GoString → Except GoError JIRAProjects
  DecodeSearch : GoString → Except GoError (List SearchRecord)
  ToLower_ascii : ∀ s, isASCII s = true → ToLower s = lowerASCII s
  Title_ascii : ∀ s, isASCII s = true → Title s = titleASCII s

/-! ## `sort`: sorting through the three methods of `sort.Interface` -/

/-- Go's `sort.Interface` over a collection of type `σ`: its three methods.
`Less` and `Swap` can panic. -/
structure Interface (σ : Type) where
  Len : σ → Nat
  Less : σ → Nat → Nat → Except Panic Bool
  Swap : σ → Nat → Nat → Except Panic σ

/-- The inner loop of Go's `insertionSort`,
`for j := i; j > a && data.Less(j, j-1); j-- { data.Swap(j, j-1) }`, for
`a = 0`. -/
def insertionSortInner {σ : Type} (data : Interface σ) : Nat → σ → Except Panic σ
  | 0, s => .ok s
  | j + 1, s =>
    match data.Less s (j + 1) j with
    | .error p => .error p
    | .ok false => .ok s
    | .ok true =>
      match data.Swap s (j + 1) j with
      | .error p => .error p
      | .ok s' => insertionSortInner data j s'

/-- The outer loop of Go's `insertionSort`, `for i := a + 1; i < b; i++`:
`count` rounds are left, the next one for the index `i`. -/
def insertionSortOuter {σ : Type} (data : Interface σ) : Nat → Nat → σ → Except Panic σ
  | 0, _, s => .ok s
  | count + 1, i, s =>
    match insertionSortInner data i s with
    | .error p => .error p
    | .ok s' => insertionSortOuter data count (i + 1) s'

/-- A model of Go's `sort.Sort(data)`: the insertion sort the library runs on
short slices, here on every slice. The library sorts longer slices with
another unstable algorithm, through the same three methods. -/
def sortSort {σ : Type} (data : Interface σ) (s : σ) : Except Panic σ :=
  insertionSortOuter data (data.Len s - 1) 1 s

/-- An element of a slice by index, `s[i]`. -/
def index {α : Type} (s : List α) (i : Nat) : Except Panic α :=
  match s[i]? with
  | some a => .ok a
  | none => .error .indexOutOfRange

/-- The assignment `s[i], s[j] = s[j], s[i]`. -/
def swapAt {α : Type} (s : List α) (i j : Nat) : Except Panic (List α) :=
  match s[i]?, s[j]? with
  | some a, some b => .ok ((s.set i b).set j a)
  | _, _ => .error .indexOutOfRange

/-- The method `JIRAIssues.Len`. -/
def JIRAIssues.Len (jis : JIRAIssues) : Nat := jis.length

/-- The method `JIRAIssues.Swap`. -/
def JIRAIssues.Swap (jis : JIRAIssues) (i j : Nat) : Except Panic JIRAIssues := swapAt jis i j

/-- The method `JIRAIssues.Less`: `jis[i].CreatedAt.Before(jis[j].CreatedAt)`. -/
def JIRAIssues.Less (jis : JIRAIssues) (i j : Nat) : Except Panic Bool :=
  match index jis i with
  | .error p => .error p
  | .ok a =>
    match index jis j with
    | .error p => .error p
    | .ok b => .ok (a.CreatedAt.Before b.CreatedAt)

/-- The methods of `JIRAIssues`, as a `sort.Interface`. -/
def JIRAIssues.Interface : Interface JIRAIssues :=
  { Len := JIRAIssues.Len, Less := JIRAIssues.Less, Swap := JIRAIssues.Swap }

/-- The method `JIRAProjects.Len`. -/
def JIRAProjects.Len (jps : JIRAProjects) : Nat := jps.length

/-- The method `JIRAProjects.Swap`. -/
def JIRAProjects.Swap (jps : JIRAProjects) (i j : Nat) : Except Panic JIRAProjects :=
  swapAt jps i j

/-- The method `JIRAProjects.Less`: `jps[i].Name < jps[j].Name`, the bytewise
comparison of Go strings; reading `Name` through a nil pointer panics. -/
def JIRAProjects.Less (jps : JIRAProjects) (i j : Nat) : Except Panic Bool :=
  match index jps i with
  | .error p => .error p
  | .ok none => .error .nilDereference
  | .ok (some a) =>
    match index jps j with
    | .error p => .error p
    | .ok none => .error .nilDereference
    | .ok (some b) => .ok (decide (a.Name < b.Name))

/-- The methods of `JIRAProjects`, as a `sort.Interface`. -/
def JIRAProjects.Interface : Interface JIRAProjects :=
  { Len := JIRAProjects.Len, Less := JIRAProjects.Less, Swap := JIRAProjects.Swap }

/-! ## The client (`jira.go`) -/

/-- The struct `JIRA` of `jira.go`. The fields `client` and `endpoint` are
pointers that `NewJIRA` sets to non-nil values. -/
structure JIRA where
  client : Client
  endpoint : URL
  projects : JIRAProjects

/-- The dynamic value of the `interface{}` parameter `projectID`: an `int`,
a `string`, a `bool`, or a value of any other type. -/
inductive ProjectID
  | int (p : Int)
  | string (p : GoString)
  | bool (p : Bool)
  | other
  deriving DecidableEq, Repr

/-- What a function call did and gave: the URLs of the HTTP requests it
performed, in order, and its outcome, the returned values or a panic. -/
structure Run (α : Type) where
  requests : List GoString
  outcome : Except Panic α

/-- The loop of `getQueryString` over the cached projects, for the string
`p`: the first project whose lower-cased name starts with the lower-cased
`p` sets `jql` and ends the loop. -/
def getQueryStringLoop (L : StdLib) (p : GoString) (values : Values) :
    JIRAProjects → Except Panic Values
  | [] => .ok values
  | none :: _ => .error .nilDereference
  | some project :: rest =>
    if HasPrefix (L.ToLower project.Name) (L.ToLower p) then
      .ok (values.Set (go "jql") (go "project=" ++ project.ID))
    else getQueryStringLoop L p values rest

/-- The method `getQueryString` of `jira.go`. -/
def JIRA.getQueryString (L : StdLib) (j : JIRA) (projectID : ProjectID) :
    Except Panic GoString :=
  match projectID with
  | .int p => .ok (Values.Encode (Values.Set [] (go "jql") (go "project=" ++ formatInt p)))
  | .string p =>
    match getQueryStringLoop L p [] j.projects with
    | .error e => .error e
    | .ok values => .ok values.Encode
  | _ => .ok []

/-- The text `fmt.Sprintf("%s://%s/browse/%s", scheme, host, key)`. -/
def browseText (scheme host key : GoString) : GoString :=
  scheme ++ go "://" ++ host ++ go "/browse/" ++ key

/-- The body of the loop of `Issues` for one record with a `fields` payload:
the issue gets its browse URL (the error of `url.Parse` is dropped, and with
it a URL that does not parse) and the record's key. -/
def withKeyAndURL (L : StdLib) (j : JIRA) (key : GoString) (ji : JIRAIssue) : JIRAIssue :=
  { ji with
    IssueURL := (L.Parse (browseText j.endpoint.Scheme j.endpoint.Host key)).toOption
    Key := key }

/-- The loop of `Issues` over the records of the decoded envelope: each
record's issue is completed and appended. A record without a `fields` payload
has a nil issue, and writing its `IssueURL` panics. -/
def issuesLoop (L : StdLib) (j : JIRA) : List SearchRecord → JIRAIssues → Except Panic JIRAIssues
  | [], jiraIssues => .ok jiraIssues
  | issue :: rest, jiraIssues =>
    match issue.JIRAIssue with
    | none => .error .nilDereference
    | some ji => issuesLoop L j rest (jiraIssues ++ [withKeyAndURL L j issue.Key ji])

/-- The part of `Issues` after a response with status 200: decode, collect,
sort. -/
def issuesDecoded (L : StdLib) (j : JIRA) (body : GoString) :
    Except Panic (Option JIRAIssues × Option GoError) :=
  match L.DecodeSearch body with
  | .error err => .ok (none, some err)
  | .ok s =>
    match issuesLoop L j s [] with
    | .error p => .error p
    | .ok jiraIssues =>
      match sortSort JIRAIssues.Interface jiraIssues with
      | .error p => .error p
      | .ok sorted => .ok (some sorted, none)

/-- The URL `Issues` requests: the endpoint with the query string as its raw
query and `/search` appended to its path. -/
def searchURL (j : JIRA) (queryString : GoString) : URL :=
  { j.endpoint with RawQuery := queryString, Path := j.endpoint.Path ++ go "/search" }

/-- The method `Issues` of `jira.go`. The result is the pair the method
returns: the issues (`none` for a nil slice) and the error (`none` for
nil). -/
def JIRA.Issues (L : StdLib) (j : JIRA) (projectID : ProjectID) :
    Run (Option JIRAIssues × Option GoError) :=
  match j.getQueryString L projectID with
  | .error p => ⟨[], .error p⟩
  | .ok queryString =>
    if queryString = [] then ⟨[], .ok (none, some .ErrProjectIDType)⟩
    else
      ⟨[L.URLString (searchURL j queryString)],
        match j.client (L.URLString (searchURL j queryString)) with
        | .error err => .ok (none, some err)
        | .ok resp =>
          if resp.StatusCode ≠ 200 then
            .ok (none, some (.errorf (go "error response: %q") resp.Status))
          else issuesDecoded L j resp.Body⟩

/-- The method `Projects` of `jira.go`. -/
def JIRA.Projects (j : JIRA) : JIRAProjects := j.projects

/-- The message of an error, `err.Error()`. -/
def GoError.Error : GoError → GoString
  | .ErrProjectIDType => go "projectID has to be a string or int"
  | .errorf format arg => format ++ go ": " ++ arg
  | .library text => text

/-- The part of `NewJIRA` after a response with status 200: decode, sort,
build the client. -/
def newJIRADecoded (L : StdLib) (client : Client) (u : URL) (body : GoString) :
    Except Panic (Option JIRA × Option GoError) :=
  match L.DecodeProjects body with
  | .error err => .ok (none, some (.errorf (go "error parsing projects: %s") err.Error))
  | .ok projects =>
    match sortSort JIRAProjects.Interface projects with
    | .error p => .error p
    | .ok sorted => .ok (some { client := client, endpoint := u, projects := sorted }, none)

/-- The URL `NewJIRA` requests: the parsed URL with the credentials and with
`/project` appended to its path. -/
def projectURL (u : URL) (info : Option Userinfo) : URL :=
  { u with User := info, Path := u.Path ++ go "/project" }

/-- The constructor `NewJIRA` of `jira.go`; `defaultClient` is
`http.DefaultClient`, and a nil `client` argument is `none`. -/
def NewJIRA (L : StdLib) (defaultClient : Client) (info : Option Userinfo)
    (jiraURL : GoString) (client : Option Client) : Run (Option JIRA × Option GoError) :=
  match L.Parse jiraURL with
  | .error err => ⟨[], .ok (none, some (.errorf (go "error parsing jira url: %s") err.Error))⟩
  | .ok u =>
    ⟨[L.URLString (projectURL u info)],
      match (client.getD defaultClient) (L.URLString (projectURL u info)) with
      | .error err =>
        .ok (none, some (.errorf (go "request to jira for auth failed: %s") err.Error))
      | .ok resp =>
        if resp.StatusCode ≠ 200 then
          .ok (none, some (.errorf (go "error response: %q") resp.Status))
        else newJIRADecoded L (client.getD defaultClient) { u with User := info } resp.Body⟩

/-! ## Users (`users.go`) -/

/-- The method `JIRAUser.String` of `users.go`:
`strings.Trim(fmt.Sprintf("%s (%s)", strings.Title(ju.Name), ju.Email), " ")`. -/
def JIRAUser.String (L : StdLib) (ju : JIRAUser) : GoString :=
  TrimByte (L.Title ju.Name ++ go " (" ++ ju.Email ++ go ")") 32

/-- Go's `unicode.IsSpace` on a byte of ASCII text: tab, line feed, vertical
tab, form feed, carriage return and space. -/
def isSpaceASCII (b : Byte) : Bool := decide (9 ≤ b.val ∧ b.val ≤ 13) || b = 32

/-- The text without its leading and trailing white space, as
`strings.TrimSpace` gives it for ASCII text. -/
def TrimSpace (s : GoString) : GoString :=
  ((s.dropWhile isSpaceASCII).reverse.dropWhile isSpaceASCII).reverse

/-- The rendering of a user in the words of the specification: the
title-cased name, ` (`, the email and `)`, with any leading and trailing
white space removed. -/
def specUserString (L : StdLib) (ju : JIRAUser) : GoString :=
  TrimSpace (L.Title ju.Name ++ go " (" ++ ju.Email ++ go ")")

/-! ## The `issues` command (`cmd/jirago/main.go`) -/

/-- The three tests at the head of the loop of the `issues` action: an issue
is skipped (`continue`) when a non-empty flag value does not occur in the
lower-cased field. The flag values are used as the user typed them. -/
def passesFilters (L : StdLib) (assignee reporter status : GoString) (issue : JIRAIssue) : Bool :=
  !(assignee ≠ [] && !Contains (L.ToLower issue.Assignee.Name) assignee)
  && !(reporter ≠ [] && !Contains (L.ToLower issue.Reporter.Name) reporter)
  && !(status ≠ [] && !Contains (L.ToLower issue.JIRAStatus.Name) status)

/-- What the `issues` action logs: the issues whose block was printed, in
order, and the number on the line `Total matching issues found`. -/
structure Report where
  displayed : List JIRAIssue
  total : Nat
  deriving DecidableEq, Repr

/-- The loop of the `issues` action over the fetched issues: an issue that
passes the three tests has its block printed and `issueCount` incremented. -/
def issuesActionLoop (L : StdLib) (assignee reporter status : GoString) :
    List JIRAIssue → Report → Report
  | [], r => r
  | issue :: rest, r =>
    if passesFilters L assignee reporter status issue then
      issuesActionLoop L assignee reporter status rest
        { displayed := r.displayed ++ [issue], total := r.total + 1 }
    else issuesActionLoop L assignee reporter status rest r

/-- The report of the `issues` action for the fetched `issues`. -/
def issuesAction (L : StdLib) (assignee reporter status : GoString) (issues : List JIRAIssue) :
    Report :=
  issuesActionLoop L assignee reporter status issues { displayed := [], total := 0 }

/-- The filter of the specification: each non-empty filter value occurs in
the field when both are compared without regard to letter case. -/
def specMatches (L : StdLib) (assignee reporter status : GoString) (issue : JIRAIssue) : Bool :=
  (assignee = [] || Contains (L.ToLower issue.Assignee.Name) (L.ToLower assignee))
  && (reporter = [] || Contains (L.ToLower issue.Reporter.Name) (L.ToLower reporter))
  && (status = [] || Contains (L.ToLower issue.JIRAStatus.Name) (L.ToLower status))

/-! ## A concrete standard library and the data of the tests -/

/-- The body `[{"id":"101","key":"PB","name":"ProjectB"}]`. -/
def bodyOneProject : GoString :=
  go "[\x7b\"id\":\"101\",\"key\":\"PB\",\"name\":\"ProjectB\"\x7d]"

/-- The body `{"issues":[{"key":"PB-1","fields":{}}]}`. -/
def bodyOneIssue : GoString := go "\x7b\"issues\":[\x7b\"key\":\"PB-1\",\"fields\":\x7b\x7d\x7d]\x7d"

/-- The body `{"issues":[{"key":"%zz","fields":{}}]}`. -/
def bodyOddKey : GoString := go "\x7b\"issues\":[\x7b\"key\":\"%zz\",\"fields\":\x7b\x7d\x7d]\x7d"

/-- The body `{"issues":[{"key":"PB-1","fields":null}]}`. -/
def bodyNullFields : GoString := go "\x7b\"issues\":[\x7b\"key\":\"PB-1\",\"fields\":null\x7d]\x7d"

/-- The body `{"issues":[]}`. -/
def bodyNoIssues : GoString := go "\x7b\"issues\":[]\x7d"

/-- A JSON decoder of project lists for the examples: it knows three bodies,
and reports any other as malformed. -/
def exampleDecodeProjects (body : GoString) : Except GoError JIRAProjects :=
  if body = bodyOneProject then
    .ok [some { ID := go "101", Key := go "PB", Name := go "ProjectB" }]
  else if body = go "[null]" then .ok [none]
  else if body = go "[null,null]" then .ok [none, none]
  else .error (.library (go "unexpected end of JSON input"))

/-- An issue with the given key, assignee name and creation time, and
nothing else. -/
def issueOf (key assignee : GoString) (createdAt : Int) : JIRAIssue :=
  { Key := key, Summary := [], Description := [], Labels := [],
    Assignee := { Name := assignee, Email := [], UserURL := [] },
    Reporter := { Name := [], Email := [], UserURL := [] },
    IssueURL := none, CreatedAt := ⟨createdAt⟩, UpdatedAt := ⟨0⟩,
    JIRAStatus := { Name := [], Description := [] } }

/-- A JSON decoder of search results for the examples: it knows four bodies,
and reports any other as malformed. -/
def exampleDecodeSearch (body : GoString) : Except GoError (List SearchRecord) :=
  if body = bodyOneIssue then .ok [{ Key := go "PB-1", JIRAIssue := some (issueOf [] [] 0) }]
  else if body = bodyOddKey then .ok [{ Key := go "%zz", JIRAIssue := some (issueOf [] [] 0) }]
  else if body = bodyNullFields then .ok [{ Key := go "PB-1", JIRAIssue := none }]
  else if body = bodyNoIssues then .ok []
  else .error (.library (go "unexpected end of JSON input"))

/-- A concrete standard library: the ASCII definitions above on every string,
the models `urlParse` and `urlString`, and the example decoders. -/
def goStd : StdLib :=
  { ToLower := lowerASCII
    Title := titleASCII
    Parse := urlParse
    URLString := urlString
    DecodeProjects := exampleDecodeProjects
    DecodeSearch := exampleDecodeSearch
    ToLower_ascii := fun _ _ => rfl
    Title_ascii := fun _ _ => rfl }

/-- An HTTP client that answers every request with the given status code and
body. -/
def serve (code : Nat) (body : GoString) : Client :=
  fun _ => .ok { StatusCode := code, Status := formatNat code, Body := body }

/-- An HTTP client whose every request fails. -/
def unreachable : Client := fun _ => .error (.library (go "unsupported protocol scheme"))

/-- A client of the server `http://jira.com` with the given transport and
cached projects. -/
def clientOf (client : Client) (projects : JIRAProjects) : JIRA :=
  { client := client, endpoint := { Scheme := go "http", Host := go "jira.com" },
    projects := projects }

/-- The project list of the test server of `jira_test.go`. -/
def serverProjects : List JIRAProject :=
  [ { ID := go "100", Key := go "PA", Name := go "ProjectA" },
    { ID := go "101", Key := go "PB", Name := go "ProjectB" },
    { ID := go "102", Key := go "PC", Name := go "ProjectC" } ]

/-- The instant of 16:54:07 UTC on the given day of March 2015, in seconds
since the epoch (1425168000 is the first of March 2015, 00:00:00 UTC). -/
def march2015 (day : Nat) : Int := 1425168000 + (day - 1) * 86400 + 16 * 3600 + 54 * 60 + 7

/-- The five issues of `TestIssuesSort`, in the order the test appends them. -/
def testIssues : JIRAIssues :=
  [ issueOf (go "PRJ-1") [] (march2015 5),
    issueOf (go "PRJ-3") [] (march2015 1),
    issueOf (go "PRJ-8") [] (march2015 2),
    issueOf (go "PRJ-2") [] (march2015 6),
    issueOf (go "PRJ-6") [] (march2015 4) ]

/-- The five projects of `TestProjectsSort`, in the order the test appends
them. -/
def testProjects : JIRAProjects :=
  [ some { ID := go "100", Key := [], Name := go "AProject" },
    some { ID := go "104", Key := [], Name := go "EProject" },
    some { ID := go "102", Key := [], Name := go "CProject" },
    some { ID := go "103", Key := [], Name := go "DProject" },
    some { ID := go "101", Key := [], Name := go "BProject" } ]

/-! ## The sorted list, as a function of the list -/

/-- What the inner loop of the insertion sort does with the element `x` and
the elements before it, `before` holding them nearest first: `x` moves past
every element it is less than, up to the first one it is not less than. -/
def sink {α : Type} (lt : α → α → Bool) (x : α) : List α → List α
  | [] => [x]
  | y :: ys => if lt x y then y :: sink lt x ys else x :: y :: ys

/-- The list the insertion sort leaves: each element in turn is sunk into
the elements before it. -/
def insertionSorted {α : Type} (lt : α → α → Bool) (s : List α) : List α :=
  (s.foldl (fun before x => sink lt x before) []).reverse

/-- An interface over lists whose `Len` is the length, whose `Swap` is the
exchange of two elements, and whose `Less` compares two elements that satisfy
`P` with `lt`. -/
structure ListInterface {α : Type} (data : Interface (List α)) (P : α → Prop)
    (lt : α → α → Bool) : Prop where
  len : ∀ s, data.Len s = s.length
  swap : ∀ s i j, data.Swap s i j = swapAt s i j
  less : ∀ s i j a b, s[i]? = some a → s[j]? = some b → P a → P b →
    data.Less s i j = .ok (lt a b)

/-- The comparison of `JIRAProjects.Less` on two projects. -/
def nameLess (a b : JIRAProject) : Bool := decide (a.Name < b.Name)

/-- The comparison of `JIRAProjects.Less` on two non-nil pointers. -/
def pointerLess : Option JIRAProject → Option JIRAProject → Bool
  | some a, some b => nameLess a b
  | _, _ => false

/-! ## Browse URLs that need no escaping -/

/-- Whether the text is a scheme as `url.Parse` leaves one in a URL: a
lower-case letter, then lower-case letters, digits, `+`, `-` and `.`. -/
def isParsedScheme : GoString → Bool
  | [] => false
  | c :: s =>
    isLowerASCII c
    && s.all (fun b => isLowerASCII b || isDigitASCII b || b = 43 || b = 45 || b = 46)

/-- Whether `URL.String` writes the host as it is: none of its bytes is one
that `shouldEscape` names for a host. -/
def isPlainHost (host : GoString) : Bool := host.all (fun b => !shouldEscapeHost b)

/-- Whether a URL path holds the key as it is: none of its bytes is one that
`shouldEscape` names for a path (letters, digits and
`- _ . ~ $ & + , / : ; = @` are not). -/
def isPlainKey (key : GoString) : Bool := key.all (fun b => !shouldEscapePath b)

/-! ## A search result with three issues -/

/-- The body
`{"issues":[{"key":"PB-3","fields":{"key":"10003","summary":"Third","assignee":{"name":"userA"},"CreatedAt":"2015-03-06T16:54:07Z"}},{"key":"PB-1","fields":{"key":"inner","assignee":{"name":"userB"},"CreatedAt":"2015-03-01T16:54:07Z"}},{"key":"PA_2.x","fields":{"CreatedAt":"2015-03-04T16:54:07Z"}}]}`:
three records, the first two with a key of their own inside `fields`, in an
order other than that of their creation times. -/
def bodyThreeIssues : GoString :=
  go "\x7b\"issues\":["
  ++ go "\x7b\"key\":\"PB-3\",\"fields\":\x7b\"key\":\"10003\",\"summary\":\"Third\","
  ++ go "\"assignee\":\x7b\"name\":\"userA\"\x7d,\"CreatedAt\":\"2015-03-06T16:54:07Z\"\x7d\x7d,"
  ++ go "\x7b\"key\":\"PB-1\",\"fields\":\x7b\"key\":\"inner\","
  ++ go "\"assignee\":\x7b\"name\":\"userB\"\x7d,\"CreatedAt\":\"2015-03-01T16:54:07Z\"\x7d\x7d,"
  ++ go "\x7b\"key\":\"PA_2.x\",\"fields\":\x7b\"CreatedAt\":\"2015-03-04T16:54:07Z\"\x7d\x7d]\x7d"

/-- The body `{"issues":[{"key":"a b","fields":{}}]}`. -/
def bodySpaceKey : GoString := go "\x7b\"issues\":[\x7b\"key\":\"a b\",\"fields\":\x7b\x7d\x7d]\x7d"

/-- The records of `bodyThreeIssues`: each envelope key with the issue its
`fields` payload decodes to. -/
def threeRecords : List (GoString × JIRAIssue) :=
  [ (go "PB-3", { issueOf (go "10003") (go "userA") (march2015 6) with Summary := go "Third" }),
    (go "PB-1", issueOf (go "inner") (go "userB") (march2015 1)),
    (go "PA_2.x", issueOf [] [] (march2015 4)) ]

/-- A JSON decoder of search results for the examples: it knows the two
bodies above besides those of `exampleDecodeSearch`. -/
def exampleDecodeSearchKeys (body : GoString) : Except GoError (List SearchRecord) :=
  if body = bodyThreeIssues then .ok (threeRecords.map (fun r => ⟨r.1, some r.2⟩))
  else if body = bodySpaceKey then .ok [{ Key := go "a b", JIRAIssue := some (issueOf [] [] 0) }]
  else exampleDecodeSearch body

/-- The concrete standard library `goStd` with the decoder
`exampleDecodeSearchKeys` of search results. -/
def goStdKeys : StdLib := { goStd with DecodeSearch := exampleDecodeSearchKeys }

/-- A client of the server `https://jira.example.com:8443/rest/api/2` with
the projects of the test server, whose transport answers every request with
status 200 and the body of three issues. -/
def threeIssuesClient : JIRA :=
  { client := serve 200 bodyThreeIssues
    endpoint :=
      { Scheme := go "https", Host := go "jira.example.com:8443", Path := go "/rest/api/2" }
    projects := serverProjects.map some }

/-! ## Query escaping: what `QueryEscape` writes, `QueryUnescape` reads back -/

set_option maxRecDepth 100000 in
/-- The two hex digits written for a byte are hex digits, and name the byte. -/
theorem escaped_byte_roundtrip : ∀ c : Byte,
    (ishex (upperhex (c.val / 16)) && ishex (upperhex (c.val % 16))) = true
    ∧ (Fin.ofNat (unhex (upperhex (c.val / 16)) * 16 + unhex (upperhex (c.val % 16))) : Byte) = c := by
  decide

set_option maxRecDepth 100000 in
/-- A byte that is not escaped is none of `%`, `+`, `&`, `;`, `=`. -/
theorem unescaped_byte_plain : ∀ c : Byte, shouldEscapeQuery c = false →
    c ≠ 37 ∧ c ≠ 43 ∧ c ≠ 38 ∧ c ≠ 59 ∧ c ≠ 61 := by
  decide

set_option maxRecDepth 100000 in
/-- A hex digit is none of `&`, `;`, `=`. -/
theorem upperhex_plain : ∀ c : Byte,
    upperhex (c.val / 16) ≠ 38 ∧ upperhex (c.val / 16) ≠ 59 ∧ upperhex (c.val / 16) ≠ 61
    ∧ upperhex (c.val % 16) ≠ 38 ∧ upperhex (c.val % 16) ≠ 59 ∧ upperhex (c.val % 16) ≠ 61 := by
  decide

/-- With enough fuel, unescaping an escaped text gives the text. -/
theorem unescapeFuel_QueryEscape (s : GoString) :
    ∀ fuel, (QueryEscape s).length ≤ fuel → unescapeFuel true fuel (QueryEscape s) = some s := by
  induction s with
  | nil =>
    intro fuel _
    cases fuel <;> simp [QueryEscape, unescapeFuel]
  | cons c s ih =>
    intro fuel hfuel
    by_cases h32 : c = 32
    · subst h32
      have hq : QueryEscape (32 :: s) = 43 :: QueryEscape s := by simp [QueryEscape]
      rw [hq] at hfuel ⊢
      cases fuel with
      | zero => simp at hfuel
      | succ fuel =>
        have := ih fuel (by simpa using hfuel)
        simp [unescapeFuel, this]
    · by_cases hesc : shouldEscapeQuery c = true
      · have hq : QueryEscape (c :: s)
            = 37 :: upperhex (c.val / 16) :: upperhex (c.val % 16) :: QueryEscape s := by
          simp [QueryEscape, h32, hesc]
        rw [hq] at hfuel ⊢
        cases fuel with
        | zero => simp at hfuel
        | succ fuel =>
          have := ih fuel (by simp at hfuel; omega)
          have hb := escaped_byte_roundtrip c
          simp only [unescapeFuel, if_true, hb.1, this, Option.map_some', hb.2]
      · have hesc' : shouldEscapeQuery c = false := by simpa using hesc
        have hq : QueryEscape (c :: s) = c :: QueryEscape s := by
          simp [QueryEscape, h32, hesc']
        rw [hq] at hfuel ⊢
        cases fuel with
        | zero => simp at hfuel
        | succ fuel =>
          have := ih fuel (by simpa using hfuel)
          have hb := unescaped_byte_plain c hesc'
          simp [unescapeFuel, hb.1, hb.2.1, this]

/-- Reading back an escaped text gives the text. -/
theorem QueryUnescape_QueryEscape (s : GoString) : QueryUnescape (QueryEscape s) = some s :=
  unescapeFuel_QueryEscape s _ (le_refl _)

/-- An escaped text has no `&`, `;` or `=`. -/
theorem QueryEscape_plain (s : GoString) :
    ∀ b ∈ QueryEscape s, b ≠ 38 ∧ b ≠ 59 ∧ b ≠ 61 := by
  induction s with
  | nil => simp [QueryEscape]
  | cons c s ih =>
    intro b hb
    by_cases h32 : c = 32
    · subst h32
      have hq : QueryEscape (32 :: s) = 43 :: QueryEscape s := by simp [QueryEscape]
      rw [hq] at hb
      rcases List.mem_cons.1 hb with h | h
      · subst h; decide
      · exact ih b h
    · by_cases hesc : shouldEscapeQuery c = true
      · have hq : QueryEscape (c :: s)
            = 37 :: upperhex (c.val / 16) :: upperhex (c.val % 16) :: QueryEscape s := by
          simp [QueryEscape, h32, hesc]
        rw [hq] at hb
        have hu := upperhex_plain c
        simp only [List.mem_cons] at hb
        rcases hb with h | h | h | h
        · subst h; decide
        · subst h; exact ⟨hu.1, hu.2.1, hu.2.2.1⟩
        · subst h; exact ⟨hu.2.2.2.1, hu.2.2.2.2.1, hu.2.2.2.2.2⟩
        · exact ih b h
      · have hesc' : shouldEscapeQuery c = false := by simpa using hesc
        have hq : QueryEscape (c :: s) = c :: QueryEscape s := by
          simp [QueryEscape, h32, hesc']
        rw [hq] at hb
        have hp := unescaped_byte_plain c hesc'
        rcases List.mem_cons.1 hb with h | h
        · subst h; exact ⟨hp.2.2.1, hp.2.2.2.1, hp.2.2.2.2⟩
        · exact ih b h

/-- Escaping works byte by byte. -/
theorem QueryEscape_append (s t : GoString) :
    QueryEscape (s ++ t) = QueryEscape s ++ QueryEscape t := by
  induction s with
  | nil => simp [QueryEscape]
  | cons c s ih =>
    simp only [List.cons_append, QueryEscape]
    split
    · simp [ih]
    · split <;> simp [ih]

/-- A text of unreserved bytes is its own escaped form. -/
theorem QueryEscape_eq_self (s : GoString)
    (h : ∀ b ∈ s, b ≠ 32 ∧ shouldEscapeQuery b = false) : QueryEscape s = s := by
  induction s with
  | nil => simp [QueryEscape]
  | cons c s ih =>
    have hc := h c (List.mem_cons_self _ _)
    simp [QueryEscape, hc.1, hc.2, ih (fun b hb => h b (List.mem_cons_of_mem _ hb))]

/-- A text without the separator is one piece. -/
theorem splitByte_of_not_mem (sep : Byte) (s : GoString) (h : sep ∉ s) :
    splitByte sep s = [s] := by
  induction s with
  | nil => simp [splitByte]
  | cons c s ih =>
    have hc : c ≠ sep := fun e => h (e ▸ List.mem_cons_self _ _)
    have hs : sep ∉ s := fun e => h (List.mem_cons_of_mem _ e)
    simp [splitByte, hc, ih hs]

/-- Cutting at the first separator, when none comes before it. -/
theorem cutByte_of_not_mem (sep : Byte) (s t : GoString) (h : sep ∉ s) :
    cutByte sep (s ++ sep :: t) = (s, t) := by
  induction s with
  | nil => simp [cutByte]
  | cons c s ih =>
    have hc : c ≠ sep := fun e => h (e ▸ List.mem_cons_self _ _)
    have hs : sep ∉ s := fun e => h (List.mem_cons_of_mem _ e)
    simp [cutByte, hc, ih hs]

/-- The query string `Values.Encode` writes for the single key `jql`. -/
theorem Encode_Set_jql (value : GoString) :
    Values.Encode (Values.Set [] (go "jql") value) = go "jql=" ++ QueryEscape value := by
  have h1 : QueryEscape (go "jql") = go "jql" := by decide
  have h2 : go "jql=" = go "jql" ++ [61] := by decide
  simp [Values.Encode, Values.Set, encodeKey, h1, h2]

/-- Parsing the query string written for the single key `jql` gives back the
value, and no error. -/
theorem ParseQuery_jql (value : GoString) :
    ParseQuery (go "jql=" ++ QueryEscape value) = ([(go "jql", [value])], false) := by
  have hplain := QueryEscape_plain value
  have hjql : go "jql=" = go "jql" ++ [61] := by decide
  have h38 : (38 : Byte) ∉ go "jql=" ++ QueryEscape value := by
    intro h
    rcases List.mem_append.1 h with h | h
    · revert h; decide
    · exact (hplain _ h).1 rfl
  have h59 : (59 : Byte) ∉ go "jql=" := by decide
  have h59' : (59 : Byte) ∉ QueryEscape value := fun h => (hplain _ h).2.1 rfl
  have hne : (go "jql=" ++ QueryEscape value).isEmpty = false := by
    rw [hjql]; rfl
  have hcut : cutByte 61 (go "jql=" ++ QueryEscape value) = (go "jql", QueryEscape value) := by
    rw [hjql, List.append_assoc]
    exact cutByte_of_not_mem 61 (go "jql") _ (by decide)
  have hk : QueryUnescape (go "jql") = some (go "jql") := by decide
  simp [ParseQuery, splitByte_of_not_mem 38 _ h38, parseQueryPiece, h59, h59', hne, hcut, hk,
    QueryUnescape_QueryEscape, Values.Add]

/-! ## `%d`: the digits of a number -/

/-- The byte of a decimal digit. -/
theorem digit_val (n : Nat) : ((Fin.ofNat (48 + n % 10) : Byte)).val = 48 + n % 10 := by
  have h : n % 10 < 10 := Nat.mod_lt _ (by decide)
  simp only [Fin.ofNat, Nat.succ_eq_add_one]
  omega

/-- The value of a text of digits with one more digit. -/
theorem decimalValue_append (ds : GoString) (d : Byte) :
    decimalValue (ds ++ [d]) = 10 * decimalValue ds + (d.val - 48) := by
  simp [decimalValue, List.foldl_append]

/-- The loop `decimalDigits` writes, before `acc`, a non-empty text of digits
whose value is `n`. -/
theorem decimalDigits_spec : ∀ (fuel n : Nat) (acc : GoString), n < 10 ^ (fuel + 1) →
    ∃ ds, decimalDigits (fuel + 1) n acc = ds ++ acc ∧ ds ≠ []
      ∧ (∀ b ∈ ds, isDigitASCII b = true) ∧ decimalValue ds = n := by
  intro fuel
  induction fuel with
  | zero =>
    intro n acc h
    have h0 : n / 10 = 0 := by omega
    have hd : isDigitASCII (Fin.ofNat (48 + n % 10) : Byte) = true := by
      simp only [isDigitASCII, digit_val, decide_eq_true_eq]
      omega
    refine ⟨[Fin.ofNat (48 + n % 10)], by simp [decimalDigits, h0], by simp, ?_, ?_⟩
    · intro b hb
      rw [List.mem_singleton.1 hb]
      exact hd
    · simp only [decimalValue, List.foldl_cons, List.foldl_nil, digit_val]
      omega
  | succ fuel ih =>
    intro n acc h
    have hd : isDigitASCII (Fin.ofNat (48 + n % 10) : Byte) = true := by
      have h10 : n % 10 < 10 := Nat.mod_lt _ (by decide)
      simp only [isDigitASCII, digit_val, decide_eq_true_eq]
      omega
    by_cases h0 : n / 10 = 0
    · refine ⟨[Fin.ofNat (48 + n % 10)], ?_, by simp, ?_, ?_⟩
      · rw [decimalDigits]
        simp [h0]
      · intro b hb
        rw [List.mem_singleton.1 hb]
        exact hd
      · simp only [decimalValue, List.foldl_cons, List.foldl_nil, digit_val]
        omega
    · have hlt : n / 10 < 10 ^ (fuel + 1) := by
        rw [Nat.div_lt_iff_lt_mul (by decide)]
        rw [pow_succ] at h
        exact h
      obtain ⟨ds, hds, _, hdig, hval⟩ := ih (n / 10) (Fin.ofNat (48 + n % 10) :: acc) hlt
      refine ⟨ds ++ [Fin.ofNat (48 + n % 10)], ?_, by simp, ?_, ?_⟩
      · rw [decimalDigits]
        simp [h0, hds]
      · intro b hb
        rcases List.mem_append.1 hb with hb | hb
        · exact hdig b hb
        · rw [List.mem_singleton.1 hb]
          exact hd
      · rw [decimalValue_append, hval, digit_val]
        omega

/-- The text `formatNat n` is a non-empty text of decimal digits whose value is `n`. -/
theorem formatNat_spec (n : Nat) :
    formatNat n ≠ [] ∧ (∀ b ∈ formatNat n, isDigitASCII b = true)
      ∧ decimalValue (formatNat n) = n := by
  have hlt : n < 10 ^ (n + 1) :=
    lt_trans (Nat.lt_pow_self (by decide : 1 < 10) n) (Nat.pow_lt_pow_right (by decide) (by omega))
  obtain ⟨ds, hds, hne, hdig, hval⟩ := decimalDigits_spec n n [] hlt
  have : formatNat n = ds := by simp [formatNat, hds]
  rw [this]
  exact ⟨hne, hdig, hval⟩

/-- A digit is an unreserved byte. -/
theorem digit_unreserved (b : Byte) (h : isDigitASCII b = true) :
    b ≠ 32 ∧ shouldEscapeQuery b = false := by
  constructor
  · rintro rfl
    revert h
    decide
  · simp [shouldEscapeQuery, h]

/-- Escaping leaves the rendering of an `int` as it is. -/
theorem QueryEscape_formatInt (n : Int) : QueryEscape (formatInt n) = formatInt n := by
  apply QueryEscape_eq_self
  intro b hb
  cases n with
  | ofNat n => exact digit_unreserved b ((formatNat_spec n).2.1 b hb)
  | negSucc n =>
    rcases List.mem_cons.1 hb with h | h
    · subst h
      decide
    · exact digit_unreserved b ((formatNat_spec (n + 1)).2.1 b h)

/-! ## `getQueryString` -/

/-- When no project matches, the loop of `getQueryString` leaves the values
as they are. -/
theorem getQueryStringLoop_no_match (L : StdLib) (s : GoString) (values : Values)
    (projects : List JIRAProject)
    (h : ∀ project ∈ projects, HasPrefix (L.ToLower project.Name) (L.ToLower s) = false) :
    getQueryStringLoop L s values (projects.map some) = .ok values := by
  induction projects with
  | nil => rfl
  | cons p ps ih =>
    have hp := h p (List.mem_cons_self _ _)
    simp only [List.map_cons, getQueryStringLoop, hp]
    exact ih (fun q hq => h q (List.mem_cons_of_mem _ hq))

/-- The loop of `getQueryString` sets `jql` from the first project that
matches, whatever follows it. -/
theorem getQueryStringLoop_first (L : StdLib) (s : GoString) (values : Values)
    (before : List JIRAProject) (first : JIRAProject) (rest : JIRAProjects)
    (hb : ∀ project ∈ before, HasPrefix (L.ToLower project.Name) (L.ToLower s) = false)
    (hf : HasPrefix (L.ToLower first.Name) (L.ToLower s) = true) :
    getQueryStringLoop L s values (before.map some ++ some first :: rest)
      = .ok (values.Set (go "jql") (go "project=" ++ first.ID)) := by
  induction before with
  | nil => simp [getQueryStringLoop, hf]
  | cons p ps ih =>
    have hp := hb p (List.mem_cons_self _ _)
    simp only [List.map_cons, List.cons_append, getQueryStringLoop, hp]
    exact ih (fun q hq => hb q (List.mem_cons_of_mem _ hq))

/-- A list with an element that satisfies `f` splits at the first such
element. -/
theorem split_at_first {α : Type} (f : α → Bool) (l : List α) (h : ∃ a ∈ l, f a = true) :
    ∃ before first after, l = before ++ first :: after
      ∧ (∀ a ∈ before, f a = false) ∧ f first = true := by
  induction l with
  | nil =>
    obtain ⟨a, ha, _⟩ := h
    exact absurd ha (List.not_mem_nil a)
  | cons x xs ih =>
    by_cases hx : f x = true
    · exact ⟨[], x, xs, rfl, by simp, hx⟩
    · have hx' : f x = false := by simpa using hx
      obtain ⟨a, ha, hfa⟩ := h
      rcases List.mem_cons.1 ha with rfl | ha
      · exact absurd hfa hx
      · obtain ⟨before, first, after, hl, hb, hf⟩ := ih ⟨a, ha, hfa⟩
        refine ⟨x :: before, first, after, by simp [hl], ?_, hf⟩
        intro b hb'
        rcases List.mem_cons.1 hb' with rfl | hb'
        · exact hx'
        · exact hb b hb'

/-- The query string written for the key `jql` is not empty. -/
theorem jql_query_ne_nil (value : GoString) :
    Values.Encode (Values.Set [] (go "jql") value) ≠ [] := by
  rw [Encode_Set_jql]
  have : go "jql=" = 106 :: go "ql=" := by decide
  simp [this]

/-- C2: for every integer `n` and every client, `getQueryString(n)` is the
non-empty text `jql=project%3D` followed by the decimal rendering of `n` (a
minus sign for a negative `n`, then digits whose value is the magnitude of
`n`); it parses, without error, to the single parameter `jql` with the value
`project=` followed by that rendering; and it is the same for every cached
project list. So it is for 42, for -7 and for 0. -/
theorem getQueryString_int :
    (∀ (L : StdLib) (j : JIRA) (n : Int),
      JIRA.getQueryString L j (.int n) = .ok (go "jql=project%3D" ++ formatInt n)
      ∧ go "jql=project%3D" ++ formatInt n ≠ []
      ∧ ParseQuery (go "jql=project%3D" ++ formatInt n)
          = ([(go "jql", [go "project=" ++ formatInt n])], false)
      ∧ (ParseQuery (go "jql=project%3D" ++ formatInt n)).1.Get (go "jql")
          = go "project=" ++ formatInt n
      ∧ ∀ (L' : StdLib) (j' : JIRA),
          JIRA.getQueryString L' j' (.int n) = JIRA.getQueryString L j (.int n))
    ∧ (∀ n : Nat, formatInt (n : Int) = formatNat n ∧ formatInt (-(n + 1 : Nat) : Int)
          = go "-" ++ formatNat (n + 1))
    ∧ (∀ n : Nat, formatNat n ≠ [] ∧ (∀ b ∈ formatNat n, isDigitASCII b = true)
          ∧ decimalValue (formatNat n) = n)
    ∧ JIRA.getQueryString goStd (clientOf unreachable []) (.int 42) = .ok (go "jql=project%3D42")
    ∧ JIRA.getQueryString goStd (clientOf unreachable []) (.int (-7)) = .ok (go "jql=project%3D-7")
    ∧ JIRA.getQueryString goStd (clientOf unreachable []) (.int 0) = .ok (go "jql=project%3D0") := by
  have key : ∀ n : Int, Values.Encode (Values.Set [] (go "jql") (go "project=" ++ formatInt n))
      = go "jql=project%3D" ++ formatInt n := by
    intro n
    have h1 : QueryEscape (go "project=") = go "project%3D" := by decide
    have h2 : go "jql=" ++ go "project%3D" = go "jql=project%3D" := by decide
    rw [Encode_Set_jql, QueryEscape_append, QueryEscape_formatInt, h1, ← List.append_assoc, h2]
  have parse : ∀ n : Int, ParseQuery (go "jql=project%3D" ++ formatInt n)
      = ([(go "jql", [go "project=" ++ formatInt n])], false) := by
    intro n
    rw [← key n, Encode_Set_jql, ParseQuery_jql]
  refine ⟨?_, ?_, formatNat_spec, by decide, by decide, by decide⟩
  · intro L j n
    refine ⟨?_, ?_, parse n, ?_, ?_⟩
    · simp only [JIRA.getQueryString, key]
    · have : go "jql=project%3D" = 106 :: go "ql=project%3D" := by decide
      simp [this]
    · rw [parse n]
      simp [Values.Get]
    · intro L' j'
      simp only [JIRA.getQueryString]
  · intro n
    refine ⟨rfl, ?_⟩
    have : (-((n + 1 : Nat) : Int)) = Int.negSucc n := rfl
    rw [this]
    rfl

/-- When no cached pointer is nil, `getQueryString` returns, and what it
returns is the blank string if and only if (a) the identifier is a string and
no cached project's lower-cased name starts with the lower-cased identifier,
or (b) the identifier is neither an `int` nor a `string`; in every other case
the result is non-empty. -/
theorem getQueryString_blank_iff (L : StdLib) (client : Client) (endpoint : URL)
    (projects : List JIRAProject) (projectID : ProjectID) :
    ∃ query,
      JIRA.getQueryString L ⟨client, endpoint, projects.map some⟩ projectID = .ok query
      ∧ (query = [] ↔
          ((∃ s, projectID = .string s
              ∧ ∀ project ∈ projects,
                  HasPrefix (L.ToLower project.Name) (L.ToLower s) = false)
            ∨ ((∀ n, projectID ≠ .int n) ∧ ∀ s, projectID ≠ .string s))) := by
  cases projectID with
  | int n =>
    refine ⟨_, rfl, ?_⟩
    constructor
    · intro h
      exact absurd h (jql_query_ne_nil _)
    · rintro (⟨s, hs, _⟩ | ⟨hn, _⟩)
      · cases hs
      · exact absurd rfl (hn n)
  | string s =>
    by_cases h : ∃ project ∈ projects,
        HasPrefix (L.ToLower project.Name) (L.ToLower s) = true
    · obtain ⟨before, first, after, hl, hb, hf⟩ :=
        split_at_first (fun p => HasPrefix (L.ToLower p.Name) (L.ToLower s)) projects h
      have hloop := getQueryStringLoop_first L s [] before first (after.map some) hb hf
      have hmap : projects.map some = before.map some ++ some first :: after.map some := by
        simp [hl]
      refine ⟨Values.Encode (Values.Set [] (go "jql") (go "project=" ++ first.ID)), ?_, ?_⟩
      · simp only [JIRA.getQueryString, hmap, hloop]
      · constructor
        · intro hq
          exact absurd hq (jql_query_ne_nil _)
        · rintro (⟨s', hs, hno⟩ | ⟨_, hs⟩)
          · cases hs
            obtain ⟨p, hp, hpm⟩ := h
            rw [hno p hp] at hpm
            cases hpm
          · exact absurd rfl (hs s)
    · have hno : ∀ project ∈ projects,
          HasPrefix (L.ToLower project.Name) (L.ToLower s) = false := by
        intro p hp
        by_contra hc
        exact h ⟨p, hp, by simpa using hc⟩
      refine ⟨[], ?_, ?_⟩
      · simp only [JIRA.getQueryString, getQueryStringLoop_no_match L s [] projects hno]
        rfl
      · exact ⟨fun _ => Or.inl ⟨s, rfl, hno⟩, fun _ => rfl⟩
  | bool b =>
    refine ⟨[], rfl, fun _ => Or.inr ⟨?_, ?_⟩, fun _ => rfl⟩
    · intro n h
      cases h
    · intro s h
      cases h
  | other =>
    refine ⟨[], rfl, fun _ => Or.inr ⟨?_, ?_⟩, fun _ => rfl⟩
    · intro n h
      cases h
    · intro s h
      cases h

/-- With a nil pointer at the head of the cached list, `getQueryString`
panics on every string. -/
theorem getQueryString_nil_head (L : StdLib) (client : Client) (endpoint : URL)
    (rest : JIRAProjects) (s : GoString) :
    JIRA.getQueryString L ⟨client, endpoint, none :: rest⟩ (.string s)
      = .error .nilDereference := by
  simp [JIRA.getQueryString, getQueryStringLoop]

/-- C4, where the code departs from it: a response to `GET <base>/project`
with status 200 and the body `[null]` decodes to one nil pointer, which
`NewJIRA` caches, returning a client and no error; for that client and the
string `projectB`, which no cached project's name starts with,
`getQueryString` panics, and `Issues` with it, where the claim has the blank
string returned. -/
theorem getQueryString_nil_project_panics :
    goStd.DecodeProjects (go "[null]") = .ok [none]
    ∧ (NewJIRA goStd unreachable none (go "http://jira.com")
        (some (serve 200 (go "[null]")))).outcome.map (fun r => (r.1.map JIRA.Projects, r.2))
        = .ok (some [none], none)
    ∧ JIRA.getQueryString goStd (clientOf (serve 200 bodyOneIssue) [none])
        (.string (go "projectB")) = .error .nilDereference
    ∧ (JIRA.Issues goStd (clientOf (serve 200 bodyOneIssue) [none])
        (.string (go "projectB"))).outcome = .error .nilDereference := by
  refine ⟨by decide, by decide, by decide, by decide⟩

/-! ## `Issues`: the failures -/

/-- C3: for every client and every project identifier that `getQueryString`
resolves to the empty string, `Issues` returns a nil issue list together with
the sentinel `ErrProjectIDType`, and performs no HTTP request. -/
theorem Issues_blank_query (L : StdLib) (j : JIRA) (projectID : ProjectID)
    (h : j.getQueryString L projectID = .ok []) :
    j.Issues L projectID = ⟨[], .ok (none, some .ErrProjectIDType)⟩ := by
  simp [JIRA.Issues, h]

/-- C3, for a boolean identifier and for a string that no cached name
starts with, against a server that would answer with an issue. -/
theorem Issues_blank_query_witness :
    ((clientOf (serve 200 bodyOneIssue) (serverProjects.map some)).getQueryString goStd
        (.bool true) = .ok []
      ∧ (clientOf (serve 200 bodyOneIssue) (serverProjects.map some)).Issues goStd (.bool true)
        = ⟨[], .ok (none, some .ErrProjectIDType)⟩)
    ∧ ((clientOf (serve 200 bodyOneIssue) (serverProjects.map some)).getQueryString goStd
        (.string (go "projectZ")) = .ok []
      ∧ (clientOf (serve 200 bodyOneIssue) (serverProjects.map some)).Issues goStd
          (.string (go "projectZ"))
        = ⟨[], .ok (none, some .ErrProjectIDType)⟩) :=
  ⟨⟨rfl, Issues_blank_query goStd _ (.bool true) rfl⟩,
    ⟨by decide, Issues_blank_query goStd _ (.string (go "projectZ")) (by decide)⟩⟩

/-- C9: for every client and every project identifier that resolves to a
non-empty query string, if the GET of the search URL errors, or its response
has a status other than 200, or its body fails to decode as the search
result envelope, then `Issues` returns a nil issue list with a non-nil error
(the transport's error, an error quoting the status, the decoder's error);
and whenever `Issues` returns a non-nil error, for any identifier, the issue
list it returns is nil. -/
theorem Issues_failure_returns_nil (L : StdLib) (j : JIRA) (projectID : ProjectID) :
    (∀ query, j.getQueryString L projectID = .ok query → query ≠ [] →
      (∀ err, j.client (L.URLString (searchURL j query)) = .error err →
        (j.Issues L projectID).outcome = .ok (none, some err))
      ∧ (∀ resp, j.client (L.URLString (searchURL j query)) = .ok resp →
          resp.StatusCode ≠ 200 →
          (j.Issues L projectID).outcome
            = .ok (none, some (.errorf (go "error response: %q") resp.Status)))
      ∧ (∀ resp err, j.client (L.URLString (searchURL j query)) = .ok resp →
          resp.StatusCode = 200 → L.DecodeSearch resp.Body = .error err →
          (j.Issues L projectID).outcome = .ok (none, some err)))
    ∧ (∀ issues err, (j.Issues L projectID).outcome = .ok (issues, some err) → issues = none) := by
  constructor
  · intro query hq hne
    refine ⟨?_, ?_, ?_⟩
    · intro err hc
      simp [JIRA.Issues, hq, hne, hc]
    · intro resp hc hs
      simp [JIRA.Issues, hq, hne, hc, hs]
    · intro resp err hc hs hd
      simp [JIRA.Issues, hq, hne, hc, hs, issuesDecoded, hd]
  · intro issues err h
    simp only [JIRA.Issues] at h
    split at h
    · simp at h
    · split at h
      · simp at h
        exact h.1.symm
      · simp only at h
        split at h
        · simp at h
          exact h.1.symm
        · split at h
          · simp at h
            exact h.1.symm
          · simp only [issuesDecoded] at h
            split at h
            · simp at h
              exact h.1.symm
            · split at h
              · simp at h
              · split at h <;> simp at h

/-- C9, against a server that cannot be reached, one that answers 404, and
one that answers 200 with the broken body of the test, a single brace. -/
theorem Issues_failure_returns_nil_witness :
    ((clientOf unreachable []).getQueryString goStd (.int 101) = .ok (go "jql=project%3D101")
      ∧ go "jql=project%3D101" ≠ []
      ∧ unreachable (goStd.URLString (searchURL (clientOf unreachable []) (go "jql=project%3D101")))
          = .error (.library (go "unsupported protocol scheme"))
      ∧ ((clientOf unreachable []).Issues goStd (.int 101)).outcome
          = .ok (none, some (.library (go "unsupported protocol scheme"))))
    ∧ ((clientOf (serve 404 []) []).Issues goStd (.int 101)).outcome
          = .ok (none, some (.errorf (go "error response: %q") (go "404")))
    ∧ ((clientOf (serve 200 (go "\x7b")) []).Issues goStd (.int 101)).outcome
          = .ok (none, some (.library (go "unexpected end of JSON input"))) :=
  ⟨⟨by decide, by decide, rfl,
      ((Issues_failure_returns_nil goStd (clientOf unreachable []) (.int 101)).1
        (go "jql=project%3D101") (by decide) (by decide)).1 _ rfl⟩,
    ((Issues_failure_returns_nil goStd (clientOf (serve 404 []) []) (.int 101)).1
        (go "jql=project%3D101") (by decide) (by decide)).2.1 _ rfl (by decide),
    ((Issues_failure_returns_nil goStd (clientOf (serve 200 (go "\x7b")) []) (.int 101)).1
        (go "jql=project%3D101") (by decide) (by decide)).2.2 _ _ rfl rfl (by decide)⟩

/-! ## `sort.Sort` through `Len`, `Less` and `Swap` -/

/-- The element right after a prefix. -/
theorem getElem?_at_length {α : Type} (A : List α) (y : α) (post : List α) :
    (A ++ y :: post)[A.length]? = some y := by
  induction A with
  | nil => simp
  | cons a A ih => simpa using ih

/-- The second element after a prefix. -/
theorem getElem?_after_length {α : Type} (A : List α) (y x : α) (post : List α) :
    (A ++ y :: x :: post)[A.length + 1]? = some x := by
  induction A with
  | nil => simp
  | cons a A ih => simpa using ih

/-- Exchanging the two elements that follow a prefix. -/
theorem swapAt_adjacent {α : Type} (A : List α) (y x : α) (post : List α) :
    swapAt (A ++ y :: x :: post) (A.length + 1) A.length = .ok (A ++ x :: y :: post) := by
  have h1 := getElem?_after_length A y x post
  have h2 := getElem?_at_length A y (x :: post)
  simp only [swapAt, h1, h2]
  congr 1
  induction A with
  | nil => rfl
  | cons a A ih =>
    simp only [List.cons_append, List.length_cons, List.set_cons_succ]
    rw [ih (getElem?_after_length A y x post) (getElem?_at_length A y (x :: post))]

/-- Sinking an element adds one element. -/
theorem sink_length {α : Type} (lt : α → α → Bool) (x : α) (before : List α) :
    (sink lt x before).length = before.length + 1 := by
  induction before with
  | nil => rfl
  | cons y ys ih =>
    simp only [sink]
    split <;> simp [ih]

/-- Sinking an element permutes it with the elements before it. -/
theorem sink_perm {α : Type} (lt : α → α → Bool) (x : α) (before : List α) :
    (sink lt x before).Perm (x :: before) := by
  induction before with
  | nil => exact List.Perm.refl _
  | cons y ys ih =>
    simp only [sink]
    split
    · exact (List.Perm.cons y ih).trans (List.Perm.swap x y ys)
    · exact List.Perm.refl _

/-- The inner loop, run on the element that follows `before`, returns, and
leaves the element sunk into `before`. -/
theorem insertionSortInner_sink {α : Type} {data : Interface (List α)} {P : α → Prop}
    {lt : α → α → Bool} (h : ListInterface data P lt) (x : α) (hx : P x) (before : List α)
    (hb : ∀ a ∈ before, P a) :
    ∀ post, insertionSortInner data before.length (before.reverse ++ x :: post)
      = .ok ((sink lt x before).reverse ++ post) := by
  induction before with
  | nil =>
    intro post
    rfl
  | cons y ys ih =>
    intro post
    have hs : (y :: ys).reverse ++ x :: post = ys.reverse ++ y :: x :: post := by simp
    have hlen : ys.length = ys.reverse.length := by simp
    have hxi : (ys.reverse ++ y :: x :: post)[ys.length + 1]? = some x := by
      rw [hlen]
      exact getElem?_after_length _ _ _ _
    have hyi : (ys.reverse ++ y :: x :: post)[ys.length]? = some y := by
      rw [hlen]
      exact getElem?_at_length _ _ _
    rw [hs, List.length_cons, insertionSortInner,
      h.less _ _ _ x y hxi hyi hx (hb y (List.mem_cons_self _ _))]
    cases hlt : lt x y with
    | false => simp [sink, hlt]
    | true =>
      have hsw : data.Swap (ys.reverse ++ y :: x :: post) (ys.length + 1) ys.length
          = .ok (ys.reverse ++ x :: y :: post) := by
        rw [h.swap]
        have := swapAt_adjacent ys.reverse y x post
        rwa [← hlen] at this
      simp only [hsw, ih (fun a ha => hb a (List.mem_cons_of_mem _ ha)) (y :: post)]
      simp [sink, hlt]

/-- The outer loop, run to its end on the elements `rest` that follow
`before`, returns, and leaves each of them sunk in turn. -/
theorem insertionSortOuter_foldl {α : Type} {data : Interface (List α)} {P : α → Prop}
    {lt : α → α → Bool} (h : ListInterface data P lt) (rest : List α) (hr : ∀ a ∈ rest, P a) :
    ∀ before, (∀ a ∈ before, P a) →
      insertionSortOuter data rest.length before.length (before.reverse ++ rest)
        = .ok (rest.foldl (fun before x => sink lt x before) before).reverse := by
  induction rest with
  | nil =>
    intro before _
    simp [insertionSortOuter]
  | cons x xs ih =>
    intro before hb
    have hx : P x := hr x (List.mem_cons_self _ _)
    simp only [List.length_cons, insertionSortOuter,
      insertionSortInner_sink h x hx before hb xs, List.foldl_cons]
    rw [← sink_length lt x before]
    refine ih (fun a ha => hr a (List.mem_cons_of_mem _ ha)) (sink lt x before) ?_
    intro a ha
    rcases List.mem_cons.1 ((sink_perm lt x before).subset ha) with rfl | ha
    · exact hx
    · exact hb a ha

/-- The insertion sort through the three methods returns, and returns the
list `insertionSorted` describes. -/
theorem sortSort_eq_insertionSorted {α : Type} {data : Interface (List α)} {P : α → Prop}
    {lt : α → α → Bool} (h : ListInterface data P lt) (s : List α) (hs : ∀ a ∈ s, P a) :
    sortSort data s = .ok (insertionSorted lt s) := by
  cases s with
  | nil => simp [sortSort, h.len, insertionSortOuter, insertionSorted]
  | cons a rest =>
    have := insertionSortOuter_foldl h rest (fun b hb => hs b (List.mem_cons_of_mem _ hb)) [a]
      (fun b hb => by
        rw [List.mem_singleton.1 hb]
        exact hs a (List.mem_cons_self _ _))
    simpa [sortSort, h.len, insertionSorted, sink] using this

/-- The sorted list is a permutation of the list. -/
theorem insertionSorted_perm {α : Type} (lt : α → α → Bool) (s : List α) :
    (insertionSorted lt s).Perm s := by
  have key : ∀ (rest before : List α),
      (rest.foldl (fun before x => sink lt x before) before).Perm (rest.reverse ++ before) := by
    intro rest
    induction rest with
    | nil =>
      intro before
      exact List.Perm.refl _
    | cons x xs ih =>
      intro before
      simp only [List.foldl_cons, List.reverse_cons, List.append_assoc, List.singleton_append]
      exact (ih _).trans (List.Perm.append_left _ (sink_perm lt x before))
  have := key s []
  simp only [List.append_nil] at this
  exact ((List.reverse_perm _).trans this).trans (List.reverse_perm s)

/-- Sinking an element into elements none of which is less than a later one
keeps them so, when `lt` is asymmetric and its negation is transitive. -/
theorem sink_pairwise {α : Type} (lt : α → α → Bool)
    (hasymm : ∀ a b, lt a b = true → lt b a = false)
    (htrans : ∀ a b c, lt a b = false → lt b c = false → lt a c = false)
    (x : α) (before : List α) (h : before.Pairwise (fun a b => lt a b = false)) :
    (sink lt x before).Pairwise (fun a b => lt a b = false) := by
  induction before with
  | nil => simp [sink]
  | cons y ys ih =>
    have hy := List.pairwise_cons.1 h
    simp only [sink]
    cases hlt : lt x y with
    | true =>
      simp only [if_true]
      refine List.pairwise_cons.2 ⟨?_, ih hy.2⟩
      intro z hz
      rcases List.mem_cons.1 ((sink_perm lt x ys).subset hz) with rfl | hz
      · exact hasymm _ _ hlt
      · exact hy.1 z hz
    | false =>
      simp only [Bool.false_eq_true, if_false]
      refine List.pairwise_cons.2 ⟨?_, h⟩
      intro z hz
      rcases List.mem_cons.1 hz with rfl | hz
      · exact hlt
      · exact htrans _ _ _ hlt (hy.1 z hz)

/-- In the sorted list no element is less than an earlier one. -/
theorem insertionSorted_pairwise {α : Type} (lt : α → α → Bool)
    (hasymm : ∀ a b, lt a b = true → lt b a = false)
    (htrans : ∀ a b c, lt a b = false → lt b c = false → lt a c = false) (s : List α) :
    (insertionSorted lt s).Pairwise (fun a b => lt b a = false) := by
  have key : ∀ (rest before : List α), before.Pairwise (fun a b => lt a b = false) →
      (rest.foldl (fun before x => sink lt x before) before).Pairwise
        (fun a b => lt a b = false) := by
    intro rest
    induction rest with
    | nil =>
      intro before hb
      exact hb
    | cons x xs ih =>
      intro before hb
      exact ih _ (sink_pairwise lt hasymm htrans x before hb)
  exact List.pairwise_reverse.2 (key s [] List.Pairwise.nil)

/-- The three methods of `JIRAIssues` are the length, the exchange of two
elements and the comparison of two creation times. -/
theorem JIRAIssues_ListInterface :
    ListInterface JIRAIssues.Interface (fun _ => True)
      (fun a b => a.CreatedAt.Before b.CreatedAt) where
  len := fun _ => rfl
  swap := fun _ _ _ => rfl
  less := by
    intro s i j a b hi hj _ _
    simp [JIRAIssues.Interface, JIRAIssues.Less, index, hi, hj]

/-- The sorted list of issues: `sort.Sort` returns it. -/
theorem JIRAIssues_sort_eq (issues : JIRAIssues) :
    sortSort JIRAIssues.Interface issues
      = .ok (insertionSorted (fun a b => a.CreatedAt.Before b.CreatedAt) issues) :=
  sortSort_eq_insertionSorted JIRAIssues_ListInterface issues (fun _ _ => trivial)

/-- The comparison `Before` is asymmetric. -/
theorem Before_asymm (a b : JIRAIssue) (h : a.CreatedAt.Before b.CreatedAt = true) :
    b.CreatedAt.Before a.CreatedAt = false := by
  simp only [Time.Before, decide_eq_true_eq, decide_eq_false_iff_not] at h ⊢
  omega

/-- The negation of the comparison `Before` is transitive. -/
theorem Before_neg_trans (a b c : JIRAIssue) (h1 : a.CreatedAt.Before b.CreatedAt = false)
    (h2 : b.CreatedAt.Before c.CreatedAt = false) : a.CreatedAt.Before c.CreatedAt = false := by
  simp only [Time.Before, decide_eq_false_iff_not] at h1 h2 ⊢
  omega

/-- The list `Issues` returns with a nil error is the sorted list of the
issues its loop collected. -/
theorem Issues_returns_sorted (L : StdLib) (j : JIRA) (projectID : ProjectID)
    (issues : JIRAIssues) (err : Option GoError)
    (h : (j.Issues L projectID).outcome = .ok (some issues, err)) :
    ∃ jiraIssues, issues = insertionSorted (fun a b => a.CreatedAt.Before b.CreatedAt) jiraIssues := by
  simp only [JIRA.Issues] at h
  split at h
  · simp at h
  · split at h
    · simp at h
    · simp only at h
      split at h
      · simp at h
      · split at h
        · simp at h
        · simp only [issuesDecoded] at h
          split at h
          · simp at h
          · split at h
            · simp at h
            · rename_i jiraIssues _
              rw [JIRAIssues_sort_eq] at h
              simp only [Except.ok.injEq, Prod.mk.injEq, Option.some.injEq] at h
              exact ⟨jiraIssues, h.1.symm⟩

/-- C5: for every list of issues, sorting it with the `JIRAIssues` ordering
(`sort.Sort` through `Len`, `Less` and `Swap`) returns, without a panic, a
permutation of the input in which no issue is created after an issue that
comes later in the list, in particular not after the one that follows it;
the five issues of the test come out in the order PRJ-3, PRJ-8, PRJ-6, PRJ-1,
PRJ-2; and every issue list that `Issues` returns is ordered so. -/
theorem JIRAIssues_sort_sorted_perm :
    (∀ issues : JIRAIssues, ∃ sorted,
      sortSort JIRAIssues.Interface issues = .ok sorted
      ∧ sorted.Perm issues
      ∧ sorted.Pairwise (fun a b => a.CreatedAt.instant ≤ b.CreatedAt.instant)
      ∧ sorted.Chain' (fun a b => b.CreatedAt.Before a.CreatedAt = false))
    ∧ (sortSort JIRAIssues.Interface testIssues).map (fun sorted => sorted.map (·.Key))
        = .ok [go "PRJ-3", go "PRJ-8", go "PRJ-6", go "PRJ-1", go "PRJ-2"]
    ∧ (∀ (L : StdLib) (j : JIRA) (projectID : ProjectID) (issues : JIRAIssues)
        (err : Option GoError),
        (j.Issues L projectID).outcome = .ok (some issues, err) →
        issues.Pairwise (fun a b => a.CreatedAt.instant ≤ b.CreatedAt.instant)) := by
  have hsorted : ∀ issues : JIRAIssues,
      (insertionSorted (fun a b : JIRAIssue => a.CreatedAt.Before b.CreatedAt) issues).Pairwise
        (fun a b => a.CreatedAt.instant ≤ b.CreatedAt.instant) := by
    intro issues
    refine (insertionSorted_pairwise (fun a b : JIRAIssue => a.CreatedAt.Before b.CreatedAt)
      Before_asymm Before_neg_trans issues).imp ?_
    intro a b h
    simp only [Time.Before, decide_eq_false_iff_not] at h
    omega
  refine ⟨?_, by decide, ?_⟩
  · intro issues
    refine ⟨_, JIRAIssues_sort_eq issues, insertionSorted_perm _ issues, hsorted issues, ?_⟩
    exact List.Pairwise.chain' (insertionSorted_pairwise _ Before_asymm Before_neg_trans issues)
  · intro L j projectID issues err h
    obtain ⟨jiraIssues, rfl⟩ := Issues_returns_sorted L j projectID issues err h
    exact hsorted jiraIssues

/-- C5, for the issue list `Issues` returns for the test's kind of response,
and for two issues created at the same instant, which keep their order. -/
theorem JIRAIssues_sort_sorted_perm_witness :
    ((clientOf (serve 200 bodyOneIssue) []).Issues goStd (.int 101)).outcome
        = .ok (some [withKeyAndURL goStd (clientOf (serve 200 bodyOneIssue) []) (go "PB-1")
            (issueOf [] [] 0)], none)
    ∧ [withKeyAndURL goStd (clientOf (serve 200 bodyOneIssue) []) (go "PB-1")
          (issueOf [] [] 0)].Pairwise (fun a b => a.CreatedAt.instant ≤ b.CreatedAt.instant)
    ∧ sortSort JIRAIssues.Interface [issueOf (go "A") [] 5, issueOf (go "B") [] 5,
          issueOf (go "C") [] 1]
        = .ok [issueOf (go "C") [] 1, issueOf (go "A") [] 5, issueOf (go "B") [] 5] :=
  ⟨by decide,
    JIRAIssues_sort_sorted_perm.2.2 goStd (clientOf (serve 200 bodyOneIssue) []) (.int 101) _ none
      (by decide),
    by decide⟩

/-! ## `NewJIRA` -/

/-- The three methods of `JIRAProjects` are the length, the exchange of two
elements and, on non-nil pointers, the comparison of two names. -/
theorem JIRAProjects_ListInterface :
    ListInterface JIRAProjects.Interface (fun p => p.isSome = true) pointerLess where
  len := fun _ => rfl
  swap := fun _ _ _ => rfl
  less := by
    intro s i j a b hi hj ha hb
    cases a with
    | none => cases ha
    | some a =>
      cases b with
      | none => cases hb
      | some b => simp [JIRAProjects.Interface, JIRAProjects.Less, index, hi, hj, pointerLess, nameLess]

/-- Sinking a non-nil pointer into non-nil pointers is sinking the project
into the projects. -/
theorem sink_map_some (x : JIRAProject) (before : List JIRAProject) :
    sink pointerLess (some x) (before.map some) = (sink nameLess x before).map some := by
  induction before with
  | nil => rfl
  | cons y ys ih =>
    simp only [List.map_cons, sink, pointerLess, ih]
    split <;> simp

/-- Sorting non-nil pointers is sorting the projects. -/
theorem insertionSorted_map_some (projects : List JIRAProject) :
    insertionSorted pointerLess (projects.map some)
      = (insertionSorted nameLess projects).map some := by
  have key : ∀ (rest before : List JIRAProject),
      (rest.map some).foldl (fun before x => sink pointerLess x before) (before.map some)
        = (rest.foldl (fun before x => sink nameLess x before) before).map some := by
    intro rest
    induction rest with
    | nil =>
      intro before
      rfl
    | cons x xs ih =>
      intro before
      simp only [List.map_cons, List.foldl_cons, sink_map_some, ih]
  have := key projects []
  simp only [List.map_nil] at this
  simp [insertionSorted, this]

/-- Sorting a project list without nil pointers returns a permutation of it
in which no name is greater than a later one. -/
theorem JIRAProjects_sort (projects : List JIRAProject) :
    ∃ sorted : List JIRAProject,
      sortSort JIRAProjects.Interface (projects.map some) = .ok (sorted.map some)
      ∧ sorted.Perm projects
      ∧ sorted.Pairwise (fun a b => a.Name ≤ b.Name) := by
  refine ⟨insertionSorted nameLess projects, ?_, insertionSorted_perm _ _, ?_⟩
  · rw [← insertionSorted_map_some]
    apply sortSort_eq_insertionSorted JIRAProjects_ListInterface
    intro a ha
    obtain ⟨p, _, rfl⟩ := List.mem_map.1 ha
    rfl
  · have h := insertionSorted_pairwise nameLess
      (by
        intro a b h
        simp only [nameLess, decide_eq_true_eq, decide_eq_false_iff_not] at h ⊢
        exact lt_asymm h)
      (by
        intro a b c h1 h2
        simp only [nameLess, decide_eq_false_iff_not, not_lt] at h1 h2 ⊢
        exact le_trans h2 h1)
      projects
    refine h.imp ?_
    intro a b hab
    simpa [nameLess] using hab

/-- The five projects of `TestProjectsSort` come out in the order of their
names, that is with the IDs 100 to 104. -/
theorem JIRAProjects_sort_test :
    (sortSort JIRAProjects.Interface testProjects).map
        (fun sorted => sorted.map (fun p => p.map (·.ID)))
      = .ok [some (go "100"), some (go "101"), some (go "102"), some (go "103"),
          some (go "104")] := by
  decide

/-- The outer loop, run on the elements `mid` that follow `before`, goes on
with the rest after it has sunk each of them in turn. -/
theorem insertionSortOuter_prefix {α : Type} {data : Interface (List α)} {P : α → Prop}
    {lt : α → α → Bool} (h : ListInterface data P lt) (mid : List α) (hm : ∀ a ∈ mid, P a) :
    ∀ before, (∀ a ∈ before, P a) → ∀ (m : Nat) (rest : List α),
      insertionSortOuter data (m + mid.length) before.length (before.reverse ++ (mid ++ rest))
        = insertionSortOuter data m (before.length + mid.length)
            ((mid.foldl (fun before x => sink lt x before) before).reverse ++ rest) := by
  induction mid with
  | nil =>
    intro before _ m rest
    simp
  | cons x xs ih =>
    intro before hb m rest
    have hx : P x := hm x (List.mem_cons_self _ _)
    have hcount : m + (x :: xs).length = (m + xs.length) + 1 := by simp [Nat.add_assoc]
    have hsink : ∀ a ∈ sink lt x before, P a := by
      intro a ha
      rcases List.mem_cons.1 ((sink_perm lt x before).subset ha) with rfl | ha
      · exact hx
      · exact hb a ha
    rw [hcount, List.cons_append, insertionSortOuter,
      insertionSortInner_sink h x hx before hb (xs ++ rest)]
    have := ih (fun a ha => hm a (List.mem_cons_of_mem _ ha)) (sink lt x before) hsink m rest
    rw [sink_length] at this
    simp only [List.foldl_cons, List.length_cons]
    rw [this]
    congr 1
    omega

/-- The inner loop panics when the element it is to sink is a nil pointer and
there is an element before it. -/
theorem insertionSortInner_nil (y : Option JIRAProject) (ys post : JIRAProjects) :
    insertionSortInner JIRAProjects.Interface (ys.length + 1)
        ((y :: ys).reverse ++ none :: post) = .error .nilDereference := by
  have hs : (y :: ys).reverse ++ none :: post = ys.reverse ++ y :: none :: post := by simp
  have hlen : ys.length = ys.reverse.length := by simp
  have hxi : (ys.reverse ++ y :: none :: post)[ys.length + 1]? = some none := by
    rw [hlen]
    exact getElem?_after_length _ _ _ _
  have hyi : (ys.reverse ++ y :: none :: post)[ys.length]? = some y := by
    rw [hlen]
    exact getElem?_at_length _ _ _
  rw [hs, insertionSortInner]
  simp [JIRAProjects.Interface, JIRAProjects.Less, index, hxi, hyi]

/-- Sinking elements in turn adds as many elements. -/
theorem foldl_sink_length {α : Type} (lt : α → α → Bool) (rest : List α) :
    ∀ before, (rest.foldl (fun before x => sink lt x before) before).length
      = before.length + rest.length := by
  induction rest with
  | nil =>
    intro before
    rfl
  | cons x xs ih =>
    intro before
    simp only [List.foldl_cons, ih, sink_length, List.length_cons]
    omega

/-- Sorting a project list with a nil pointer and at least two elements
panics: `Less` reads the name of every element it is given. -/
theorem JIRAProjects_sort_nil_panics (before : List JIRAProject) (post : JIRAProjects)
    (h2 : 2 ≤ (before.map some ++ none :: post).length) :
    sortSort JIRAProjects.Interface (before.map some ++ none :: post)
      = .error .nilDereference := by
  cases before with
  | nil =>
    cases post with
    | nil => simp at h2
    | cons x rest =>
      cases x <;>
        simp [sortSort, JIRAProjects.Interface, JIRAProjects.Len, insertionSortOuter,
          insertionSortInner, JIRAProjects.Less, index]
  | cons a rest =>
    have hprefix := insertionSortOuter_prefix JIRAProjects_ListInterface (rest.map some)
      (by
        intro p hp
        obtain ⟨q, _, rfl⟩ := List.mem_map.1 hp
        rfl)
      [some a] (by simp) (post.length + 1) (none :: post)
    have hlen : JIRAProjects.Interface.Len ((a :: rest).map some ++ none :: post) - 1
        = post.length + 1 + (rest.map some).length := by
      simp [JIRAProjects.Interface, JIRAProjects.Len]
      omega
    have hlist : (a :: rest).map some ++ none :: post
        = [some a].reverse ++ (rest.map some ++ none :: post) := by simp
    have hstep : insertionSortOuter JIRAProjects.Interface
        (post.length + 1 + (rest.map some).length) 1
        ([some a].reverse ++ (rest.map some ++ none :: post))
        = insertionSortOuter JIRAProjects.Interface (post.length + 1)
            ([some a].length + (rest.map some).length)
            (((rest.map some).foldl (fun before x => sink pointerLess x before)
              [some a]).reverse ++ none :: post) := hprefix
    rw [sortSort, hlen, hlist, hstep, insertionSortOuter]
    cases hB : (rest.map some).foldl (fun before x => sink pointerLess x before) [some a] with
    | nil =>
      have := foldl_sink_length pointerLess (rest.map some) [some a]
      rw [hB] at this
      simp at this
      omega
    | cons y ys =>
      have hBl := foldl_sink_length pointerLess (rest.map some) [some a]
      rw [hB] at hBl
      have : [some a].length + (rest.map some).length = ys.length + 1 := by
        simpa using hBl.symm
      rw [this, insertionSortInner_nil]

/-- A project list is free of nil pointers, or splits at its first one. -/
theorem nil_free_or_split (projects : JIRAProjects) :
    (∃ ps : List JIRAProject, projects = ps.map some)
    ∨ ∃ (before : List JIRAProject) (post : JIRAProjects),
        projects = before.map some ++ none :: post := by
  induction projects with
  | nil => exact Or.inl ⟨[], rfl⟩
  | cons p projects ih =>
    cases p with
    | none => exact Or.inr ⟨[], projects, rfl⟩
    | some p =>
      rcases ih with ⟨ps, hps⟩ | ⟨before, post, hsplit⟩
      · exact Or.inl ⟨p :: ps, by simp [hps]⟩
      · exact Or.inr ⟨p :: before, post, by simp [hsplit]⟩

/-- The project list `sort.Sort` leaves is free of nil pointers, or it is the
one nil pointer it was given. -/
theorem JIRAProjects_sorted_nil_free (projects sorted : JIRAProjects)
    (h : sortSort JIRAProjects.Interface projects = .ok sorted) :
    (∃ ps : List JIRAProject, sorted = ps.map some) ∨ sorted = [none] := by
  rcases nil_free_or_split projects with ⟨ps, hps⟩ | ⟨before, post, hsplit⟩
  · obtain ⟨ps', hsort, _, _⟩ := JIRAProjects_sort ps
    rw [hps, hsort] at h
    cases h
    exact Or.inl ⟨ps', rfl⟩
  · by_cases h2 : 2 ≤ (before.map some ++ none :: post).length
    · rw [hsplit, JIRAProjects_sort_nil_panics before post h2] at h
      cases h
    · have hb : before = [] := by
        cases before with
        | nil => rfl
        | cons a rest =>
          simp at h2
      have hp : post = [] := by
        cases post with
        | nil => rfl
        | cons a rest =>
          simp at h2
          omega
      subst hb hp
      rw [hsplit] at h
      have : sortSort JIRAProjects.Interface ([].map some ++ [none]) = .ok [none] := by decide
      rw [this] at h
      cases h
      exact Or.inr rfl

/-- The project list of a client that `NewJIRA` returns is free of nil
pointers, or it is one nil pointer: a cached list that holds a project holds
no nil pointer. -/
theorem NewJIRA_cache_nil_free (L : StdLib) (defaultClient : Client) (info : Option Userinfo)
    (jiraURL : GoString) (client : Option Client) (j : Option JIRA) (err : Option GoError)
    (h : (NewJIRA L defaultClient info jiraURL client).outcome = .ok (j, err)) :
    ∀ c, j = some c → (∃ ps : List JIRAProject, c.projects = ps.map some) ∨ c.projects = [none] := by
  intro c hc
  subst hc
  simp only [NewJIRA] at h
  split at h
  · simp at h
  · simp only at h
    split at h
    · simp at h
    · split at h
      · simp at h
      · simp only [newJIRADecoded] at h
        split at h
        · simp at h
        · split at h
          · simp at h
          · rename_i sorted hsort
            simp only [Except.ok.injEq, Prod.mk.injEq, Option.some.injEq] at h
            rw [← h.1]
            exact JIRAProjects_sorted_nil_free _ _ hsort

/-- For every list of projects and every string `s`, if some project's
lower-cased name starts with the lower-cased `s`, then `getQueryString(s)`
returns a query string that parses to `jql`, with the value `project=`
followed by the ID of the first such project. -/
theorem getQueryString_first_of_projects (L : StdLib) (client : Client) (endpoint : URL)
    (projects : List JIRAProject) (s : GoString)
    (h : ∃ project ∈ projects, HasPrefix (L.ToLower project.Name) (L.ToLower s) = true) :
    ∃ before first after,
      projects = before ++ first :: after
      ∧ (∀ project ∈ before, HasPrefix (L.ToLower project.Name) (L.ToLower s) = false)
      ∧ HasPrefix (L.ToLower first.Name) (L.ToLower s) = true
      ∧ ∃ query,
          JIRA.getQueryString L ⟨client, endpoint, projects.map some⟩ (.string s) = .ok query
          ∧ ParseQuery query = ([(go "jql", [go "project=" ++ first.ID])], false)
          ∧ (ParseQuery query).1.Get (go "jql") = go "project=" ++ first.ID := by
  obtain ⟨before, first, after, hl, hb, hf⟩ :=
    split_at_first (fun p => HasPrefix (L.ToLower p.Name) (L.ToLower s)) projects h
  refine ⟨before, first, after, hl, hb, hf, ?_⟩
  have hloop := getQueryStringLoop_first L s [] before first (after.map some) hb hf
  have hmap : projects.map some = before.map some ++ some first :: after.map some := by
    simp [hl]
  refine ⟨Values.Encode (Values.Set [] (go "jql") (go "project=" ++ first.ID)), ?_, ?_, ?_⟩
  · simp only [JIRA.getQueryString, hmap, hloop]
  · rw [Encode_Set_jql, ParseQuery_jql]
  · rw [Encode_Set_jql, ParseQuery_jql]
    simp [Values.Get]

/-- C1: for every list of cached projects and every string `s`, if some
project's lower-cased name starts with the lower-cased `s`, then
`getQueryString(s)` returns a query string that parses, without error, to the
single parameter `jql` with the value `project=` followed by the ID of the
first such project in list order, whatever later projects also match. So it
is for every list of projects, and for the list of every client that
`NewJIRA` returns (where a project is found, that list holds no nil
pointer). -/
theorem getQueryString_string_first_match :
    (∀ (L : StdLib) (client : Client) (endpoint : URL) (projects : List JIRAProject)
        (s : GoString),
        (∃ project ∈ projects, HasPrefix (L.ToLower project.Name) (L.ToLower s) = true) →
        ∃ before first after,
          projects = before ++ first :: after
          ∧ (∀ project ∈ before, HasPrefix (L.ToLower project.Name) (L.ToLower s) = false)
          ∧ HasPrefix (L.ToLower first.Name) (L.ToLower s) = true
          ∧ ∃ query,
              JIRA.getQueryString L ⟨client, endpoint, projects.map some⟩ (.string s)
                = .ok query
              ∧ ParseQuery query = ([(go "jql", [go "project=" ++ first.ID])], false)
              ∧ (ParseQuery query).1.Get (go "jql") = go "project=" ++ first.ID)
    ∧ (∀ (L : StdLib) (defaultClient : Client) (info : Option Userinfo) (jiraURL : GoString)
        (client : Option Client) (j : JIRA) (err : Option GoError) (s : GoString),
        (NewJIRA L defaultClient info jiraURL client).outcome = .ok (some j, err) →
        (∃ project, some project ∈ j.projects
          ∧ HasPrefix (L.ToLower project.Name) (L.ToLower s) = true) →
        ∃ before first after,
          j.projects = (before ++ first :: after).map some
          ∧ (∀ project ∈ before, HasPrefix (L.ToLower project.Name) (L.ToLower s) = false)
          ∧ HasPrefix (L.ToLower first.Name) (L.ToLower s) = true
          ∧ ∃ query,
              j.getQueryString L (.string s) = .ok query
              ∧ ParseQuery query = ([(go "jql", [go "project=" ++ first.ID])], false)
              ∧ (ParseQuery query).1.Get (go "jql") = go "project=" ++ first.ID) := by
  refine ⟨getQueryString_first_of_projects, ?_⟩
  intro L defaultClient info jiraURL client j err s hnew hmatch
  rcases NewJIRA_cache_nil_free L defaultClient info jiraURL client (some j) err hnew j rfl
    with ⟨ps, hps⟩ | hnil
  · obtain ⟨project, hmem, hpre⟩ := hmatch
    rw [hps] at hmem
    obtain ⟨q, hq, hqp⟩ := List.mem_map.1 hmem
    cases hqp
    obtain ⟨before, first, after, hl, hb, hf, query, hquery, hparse, hget⟩ :=
      getQueryString_first_of_projects L j.client j.endpoint ps s ⟨project, hq, hpre⟩
    refine ⟨before, first, after, by rw [hps, hl], hb, hf, query, ?_, hparse, hget⟩
    rw [← hquery]
    cases j
    simp only at hps
    rw [hps]
  · obtain ⟨project, hmem, _⟩ := hmatch
    rw [hnil] at hmem
    simp at hmem

/-- C1, on the projects of the test server: `projectA` resolves to the ID of
`ProjectA`, and `project`, which all three names start with, to the ID of the
first of them. -/
theorem getQueryString_string_first_match_witness :
    (∃ project ∈ serverProjects,
        HasPrefix (goStd.ToLower project.Name) (goStd.ToLower (go "project")) = true)
    ∧ (∃ before first after,
        serverProjects = before ++ first :: after
        ∧ (∀ project ∈ before,
            HasPrefix (goStd.ToLower project.Name) (goStd.ToLower (go "project")) = false)
        ∧ HasPrefix (goStd.ToLower first.Name) (goStd.ToLower (go "project")) = true
        ∧ ∃ query,
            JIRA.getQueryString goStd ⟨unreachable, {}, serverProjects.map some⟩
              (.string (go "project")) = .ok query
            ∧ ParseQuery query = ([(go "jql", [go "project=" ++ first.ID])], false)
            ∧ (ParseQuery query).1.Get (go "jql") = go "project=" ++ first.ID)
    ∧ JIRA.getQueryString goStd ⟨unreachable, {}, serverProjects.map some⟩
        (.string (go "project")) = .ok (go "jql=project%3D100")
    ∧ JIRA.getQueryString goStd
        ⟨unreachable, {}, [some { ID := go "100", Key := go "PA", Name := go "ProjectA" }]⟩
        (.string (go "projectA")) = .ok (go "jql=project%3D100")
    ∧ (ParseQuery (go "jql=project%3D100")).1.Get (go "jql") = go "project=100" :=
  ⟨⟨_, List.mem_cons_self _ _, by decide⟩,
    getQueryString_string_first_match.1 goStd unreachable {} serverProjects (go "project")
      ⟨_, List.mem_cons_self _ _, by decide⟩,
    by decide, by decide, by decide⟩

/-- What `NewJIRA` does for each outcome of parsing the URL, of the GET of
`<base>/project` and of decoding its body, when the decoded array has no
`null` element: a parse error, a transport error, a status other than 200
and a decoding error each give a nil client and a non-nil error; a decoded
array gives a nil error and a client whose project list is a permutation of
the array, sorted by name. -/
theorem NewJIRA_outcomes (L : StdLib) (defaultClient : Client) (info : Option Userinfo)
    (jiraURL : GoString) (client : Option Client) :
    (∀ err, L.Parse jiraURL = .error err →
      NewJIRA L defaultClient info jiraURL client
        = ⟨[], .ok (none, some (.errorf (go "error parsing jira url: %s") err.Error))⟩)
    ∧ (∀ u, L.Parse jiraURL = .ok u →
        (NewJIRA L defaultClient info jiraURL client).requests
          = [L.URLString (projectURL u info)]
        ∧ (∀ err, (client.getD defaultClient) (L.URLString (projectURL u info)) = .error err →
            (NewJIRA L defaultClient info jiraURL client).outcome
              = .ok (none, some (.errorf (go "request to jira for auth failed: %s") err.Error)))
        ∧ (∀ resp, (client.getD defaultClient) (L.URLString (projectURL u info)) = .ok resp →
            (resp.StatusCode ≠ 200 →
              (NewJIRA L defaultClient info jiraURL client).outcome
                = .ok (none, some (.errorf (go "error response: %q") resp.Status)))
            ∧ (resp.StatusCode = 200 →
                (∀ err, L.DecodeProjects resp.Body = .error err →
                  (NewJIRA L defaultClient info jiraURL client).outcome
                    = .ok (none, some (.errorf (go "error parsing projects: %s") err.Error)))
                ∧ (∀ projects : List JIRAProject,
                    L.DecodeProjects resp.Body = .ok (projects.map some) →
                    ∃ sorted : List JIRAProject,
                      (NewJIRA L defaultClient info jiraURL client).outcome
                        = .ok (some { client := client.getD defaultClient,
                                      endpoint := { u with User := info },
                                      projects := sorted.map some }, none)
                      ∧ sorted.Perm projects
                      ∧ sorted.Pairwise (fun a b => a.Name ≤ b.Name))))) := by
  constructor
  · intro err h
    simp [NewJIRA, h]
  · intro u hu
    refine ⟨by simp [NewJIRA, hu], ?_, ?_⟩
    · intro err hc
      simp [NewJIRA, hu, hc]
    · intro resp hc
      refine ⟨?_, ?_⟩
      · intro hs
        simp [NewJIRA, hu, hc, hs]
      · intro hs
        refine ⟨?_, ?_⟩
        · intro err hd
          simp [NewJIRA, hu, hc, hs, newJIRADecoded, hd]
        · intro projects hd
          obtain ⟨sorted, hsort, hperm, hpw⟩ := JIRAProjects_sort projects
          exact ⟨sorted, by simp [NewJIRA, hu, hc, hs, newJIRADecoded, hd, hsort], hperm, hpw⟩

/-- Whatever the response, `NewJIRA` panics when the body decodes to two or
more elements one of which is `null`. -/
theorem NewJIRA_null_element_panics (L : StdLib) (defaultClient : Client)
    (info : Option Userinfo) (jiraURL : GoString) (client : Option Client) (u : URL)
    (resp : Response) (before : List JIRAProject) (post : JIRAProjects)
    (hu : L.Parse jiraURL = .ok u)
    (hc : (client.getD defaultClient) (L.URLString (projectURL u info)) = .ok resp)
    (hs : resp.StatusCode = 200)
    (hd : L.DecodeProjects resp.Body = .ok (before.map some ++ none :: post))
    (h2 : 2 ≤ (before.map some ++ none :: post).length) :
    (NewJIRA L defaultClient info jiraURL client).outcome = .error .nilDereference := by
  simp [NewJIRA, hu, hc, hs, newJIRADecoded, hd, JIRAProjects_sort_nil_panics before post h2]

/-- C6, where the code departs from it: a response to `GET <base>/project`
with status 200 and the body `[null,null]` decodes to two nil pointers, and
`NewJIRA` panics in `JIRAProjects.Less` while it sorts them: it returns
neither an error nor a client. -/
theorem NewJIRA_null_projects_panics :
    goStd.DecodeProjects (go "[null,null]") = .ok [none, none]
    ∧ (NewJIRA goStd unreachable none (go "http://jira.com")
        (some (serve 200 (go "[null,null]")))).requests = [go "http://jira.com/project"]
    ∧ (NewJIRA goStd unreachable none (go "http://jira.com")
        (some (serve 200 (go "[null,null]")))).outcome = .error .nilDereference := by
  refine ⟨by decide, by decide, by rfl⟩

/-! ## `url.Parse` and `URL.String` on a browse URL -/

set_option maxRecDepth 100000 in
/-- A byte of a lower-case scheme is its own lower case, and is no colon,
`#`, `?` or control byte. -/
theorem scheme_byte_plain : ∀ b : Byte,
    (isLowerASCII b || isDigitASCII b || b = 43 || b = 45 || b = 46) = true →
      lowerByte b = b ∧ b ≠ 58 ∧ b ≠ 35 ∧ b ≠ 63 ∧ ¬ (b.val < 32 ∨ b.val = 127)
      ∧ (isLowerASCII b = false →
          isUpperASCII b = false ∧ (isDigitASCII b || b = 43 || b = 45 || b = 46) = true) := by
  decide

set_option maxRecDepth 100000 in
/-- A byte that needs no escaping in a host is valid in a host, and is no
`%`, `#`, `/`, `?`, `@` or control byte. -/
theorem host_byte_plain : ∀ b : Byte, shouldEscapeHost b = false →
    b ≠ 37 ∧ b ≠ 35 ∧ b ≠ 47 ∧ b ≠ 63 ∧ b ≠ 64 ∧ ¬ (b.val < 32 ∨ b.val = 127) := by
  decide

set_option maxRecDepth 100000 in
/-- A byte that needs no escaping in a path is no `%`, `#`, `?` or control
byte. -/
theorem path_byte_plain : ∀ b : Byte, shouldEscapePath b = false →
    b ≠ 37 ∧ b ≠ 35 ∧ b ≠ 63 ∧ ¬ (b.val < 32 ∨ b.val = 127) := by
  decide

/-- Cutting a text without the separator gives the text and nothing. -/
theorem cutByte_no_sep (sep : Byte) (s : GoString) (h : sep ∉ s) : cutByte sep s = (s, []) := by
  induction s with
  | nil => simp [cutByte]
  | cons c s ih =>
    have hc : c ≠ sep := fun e => h (e ▸ List.mem_cons_self _ _)
    have hs : sep ∉ s := fun e => h (List.mem_cons_of_mem _ e)
    simp [cutByte, hc, ih hs]

/-- The loop of `getScheme` reads scheme bytes up to the colon. -/
theorem getSchemeLoop_scheme (rawURL s rest : GoString)
    (hs : ∀ b ∈ s, (isLowerASCII b || isDigitASCII b || b = 43 || b = 45 || b = 46) = true) :
    ∀ acc, getSchemeLoop rawURL false acc (s ++ 58 :: rest) = some (acc.reverse ++ s, rest) := by
  induction s with
  | nil =>
    intro acc
    have h1 : isLowerASCII (58 : Byte) = false := by decide
    have h2 : isUpperASCII (58 : Byte) = false := by decide
    have h3 : isDigitASCII (58 : Byte) = false := by decide
    simp [getSchemeLoop, h1, h2, h3]
  | cons c s ih =>
    intro acc
    have hc := scheme_byte_plain c (hs c (List.mem_cons_self _ _))
    have ih' := ih (fun b hb => hs b (List.mem_cons_of_mem _ hb)) (c :: acc)
    by_cases hl : isLowerASCII c = true
    · simp [getSchemeLoop, hl, ih']
    · have hl' : isLowerASCII c = false := by simpa using hl
      have hd := (hc.2.2.2.2.2 hl').2
      simp only [List.cons_append, getSchemeLoop, hl', (hc.2.2.2.2.2 hl').1, Bool.or_self,
        Bool.false_eq_true, if_false, hd, if_true]
      simpa using ih'

/-- A lower-case scheme is its own lower case. -/
theorem lowerASCII_scheme (s : GoString)
    (hs : ∀ b ∈ s, (isLowerASCII b || isDigitASCII b || b = 43 || b = 45 || b = 46) = true) :
    lowerASCII s = s := by
  induction s with
  | nil => rfl
  | cons c s ih =>
    have hc := scheme_byte_plain c (hs c (List.mem_cons_self _ _))
    have ih' := ih (fun b hb => hs b (List.mem_cons_of_mem _ hb))
    simp only [lowerASCII, List.map_cons] at ih' ⊢
    rw [hc.1, ih']

/-- Unescaping a text without a `%` gives the text. -/
theorem unescapeFuel_plain (s : GoString) (h : (37 : Byte) ∉ s) :
    ∀ fuel, s.length ≤ fuel → unescapeFuel false fuel s = some s := by
  induction s with
  | nil =>
    intro fuel _
    cases fuel <;> simp [unescapeFuel]
  | cons c s ih =>
    intro fuel hf
    have hc : c ≠ 37 := fun e => h (e ▸ List.mem_cons_self _ _)
    have hs : (37 : Byte) ∉ s := fun e => h (List.mem_cons_of_mem _ e)
    cases fuel with
    | zero => simp at hf
    | succ fuel =>
      have := ih hs fuel (by simpa using hf)
      simp [unescapeFuel, hc, this]

/-- Escaping a text whose bytes need no escaping gives the text. -/
theorem escapeBytes_plain (shouldEscape : Byte → Bool) (s : GoString)
    (h : ∀ b ∈ s, shouldEscape b = false) : escapeBytes shouldEscape s = s := by
  induction s with
  | nil => rfl
  | cons c s ih =>
    simp [escapeBytes, h c (List.mem_cons_self _ _),
      ih (fun b hb => h b (List.mem_cons_of_mem _ hb))]

/-- The text of a browse URL, byte by byte around its three parts. -/
theorem browseText_bytes (scheme host key : GoString) :
    browseText scheme host key
      = scheme ++ 58 :: 47 :: 47 :: (host ++ 47 :: ([98, 114, 111, 119, 115, 101, 47] ++ key)) := by
  have h1 : go "://" = [58, 47, 47] := by decide
  have h2 : go "/browse/" = [47, 98, 114, 111, 119, 115, 101, 47] := by decide
  simp [browseText, h1, h2]

set_option maxRecDepth 100000 in
/-- For a lower-case scheme, a plain host that `parseAuthority` accepts and a
plain key, `parse` reads the browse URL as the scheme, the host and the path
`/browse/<key>`, with nothing else. -/
theorem parseURL_browseText (scheme host key : GoString)
    (hscheme : isParsedScheme scheme = true)
    (hauth : parseAuthority host = some host)
    (hhost : isPlainHost host = true)
    (hkey : isPlainKey key = true) :
    parseURL (browseText scheme host key)
      = some { Scheme := scheme, Host := host, Path := go "/browse/" ++ key } := by
  obtain ⟨c, s, rfl, hc, hs⟩ : ∃ c s, scheme = c :: s ∧ isLowerASCII c = true
      ∧ ∀ b ∈ s, (isLowerASCII b || isDigitASCII b || b = 43 || b = 45 || b = 46) = true := by
    cases scheme with
    | nil => simp [isParsedScheme] at hscheme
    | cons c s =>
      simp only [isParsedScheme, Bool.and_eq_true, List.all_eq_true] at hscheme
      exact ⟨c, s, rfl, hscheme.1, hscheme.2⟩
  have hall : ∀ b ∈ c :: s,
      (isLowerASCII b || isDigitASCII b || b = 43 || b = 45 || b = 46) = true := by
    intro b hb
    rcases List.mem_cons.1 hb with rfl | hb
    · simp [hc]
    · exact hs b hb
  have hh : ∀ b ∈ host, shouldEscapeHost b = false := by simpa [isPlainHost] using hhost
  have hk : ∀ b ∈ key, shouldEscapePath b = false := by simpa [isPlainKey] using hkey
  have hgo : go "/browse/" ++ key = 47 :: ([98, 114, 111, 119, 115, 101, 47] ++ key) := by
    have h2 : go "/browse/" = [47, 98, 114, 111, 119, 115, 101, 47] := by decide
    simp [h2]
  rw [browseText_bytes, hgo]
  have hplain : ∀ b ∈ ([98, 114, 111, 119, 115, 101, 47] : GoString),
      shouldEscapePath b = false := by decide
  obtain ⟨path, hpath⟩ : ∃ path : GoString,
      path = 47 :: ([98, 114, 111, 119, 115, 101, 47] ++ key) := ⟨_, rfl⟩
  obtain ⟨rest, hrest⟩ : ∃ rest : GoString, rest = 47 :: 47 :: (host ++ path) := ⟨_, rfl⟩
  obtain ⟨text, htext⟩ : ∃ text : GoString, text = (c :: s) ++ 58 :: rest := ⟨_, rfl⟩
  rw [← hpath, ← hrest, ← htext]
  have hpathk : ∀ b ∈ path, shouldEscapePath b = false := by
    intro b hb
    rw [hpath] at hb
    rcases List.mem_cons.1 hb with rfl | hb
    · decide
    · rcases List.mem_append.1 hb with hb | hb
      · exact hplain b hb
      · exact hk b hb
  have hrestk : ∀ b ∈ rest, b ≠ 35 ∧ b ≠ 63 ∧ ¬ (b.val < 32 ∨ b.val = 127) := by
    intro b hb
    rw [hrest] at hb
    rcases List.mem_cons.1 hb with rfl | hb
    · decide
    · rcases List.mem_cons.1 hb with rfl | hb
      · decide
      · rcases List.mem_append.1 hb with hb | hb
        · have := host_byte_plain b (hh b hb)
          exact ⟨this.2.1, this.2.2.2.1, this.2.2.2.2.2⟩
        · exact (path_byte_plain b (hpathk b hb)).2
  have htextk : ∀ b ∈ text, b ≠ 35 ∧ ¬ (b.val < 32 ∨ b.val = 127) := by
    intro b hb
    rw [htext] at hb
    rcases List.mem_append.1 hb with hb | hb
    · have := scheme_byte_plain b (hall b hb)
      exact ⟨this.2.2.1, this.2.2.2.2.1⟩
    · rcases List.mem_cons.1 hb with rfl | hb
      · decide
      · exact ⟨(hrestk b hb).1, (hrestk b hb).2.2⟩
  have hctl : stringContainsCTLByte text = false := by
    rw [stringContainsCTLByte, List.any_eq_false]
    intro b hb
    simpa using (htextk b hb).2
  have h42 : text ≠ [42] := by
    rw [htext, hrest]
    simp
  have hgs : getScheme text = some (c :: s, rest) := by
    have := getSchemeLoop_scheme text s rest hs [c]
    have e : getSchemeLoop text true [] text
        = getSchemeLoop text true [] ((c :: s) ++ 58 :: rest) := by rw [← htext]
    rw [getScheme, e]
    simp only [List.cons_append, getSchemeLoop, hc, Bool.true_or, if_true]
    simpa using this
  have hlow : lowerASCII (c :: s) = c :: s := lowerASCII_scheme _ hall
  have h63 : cutByte 63 rest = (rest, []) :=
    cutByte_no_sep 63 rest (fun hb => (hrestk _ hb).2.1 rfl)
  have hp1 : HasPrefix rest [47] = true := by
    rw [hrest]
    simp [HasPrefix]
  have hp2 : HasPrefix rest [47, 47] = true := by
    rw [hrest]
    simp [HasPrefix]
  have hdrop : rest.drop 2 = host ++ path := by
    rw [hrest]
    rfl
  have h47 : cutByte 47 (host ++ path)
      = (host, [98, 114, 111, 119, 115, 101, 47] ++ key) := by
    rw [hpath]
    exact cutByte_of_not_mem 47 host _ (fun hb => (host_byte_plain _ (hh _ hb)).2.2.1 rfl)
  have hdl : (host ++ path).drop host.length = path := List.drop_left _ _
  have hun : unescapeFuel false path.length path = some path :=
    unescapeFuel_plain path (fun hb => (path_byte_plain _ (hpathk _ hb)).1 rfl) _ (le_refl _)
  have hesc : escapePath path = path := escapeBytes_plain _ _ hpathk
  simp only [parseURL, hctl, h42, hgs, hlow, h63, hp1, hp2, hdrop, h47, hdl, hauth, setPath, hun,
    hesc]
  simp

/-- The browse URL of a lower-case scheme, a plain host and a plain key has
no `#`. -/
theorem browseText_no_fragment (scheme host key : GoString)
    (hscheme : isParsedScheme scheme = true)
    (hhost : isPlainHost host = true)
    (hkey : isPlainKey key = true) :
    (35 : Byte) ∉ browseText scheme host key := by
  have hh : ∀ b ∈ host, shouldEscapeHost b = false := by simpa [isPlainHost] using hhost
  have hk : ∀ b ∈ key, shouldEscapePath b = false := by simpa [isPlainKey] using hkey
  have hs : ∀ b ∈ scheme,
      (isLowerASCII b || isDigitASCII b || b = 43 || b = 45 || b = 46) = true := by
    cases scheme with
    | nil => simp
    | cons c s =>
      simp only [isParsedScheme, Bool.and_eq_true, List.all_eq_true] at hscheme
      intro b hb
      rcases List.mem_cons.1 hb with rfl | hb
      · simp [hscheme.1]
      · exact hscheme.2 b hb
  have h1 : (35 : Byte) ∉ go "://" := by decide
  have h2 : (35 : Byte) ∉ go "/browse/" := by decide
  intro hb
  simp only [browseText, List.mem_append] at hb
  rcases hb with (((hb | hb) | hb) | hb) | hb
  · exact (scheme_byte_plain _ (hs _ hb)).2.2.1 rfl
  · exact h1 hb
  · exact (host_byte_plain _ (hh _ hb)).2.1 rfl
  · exact h2 hb
  · exact (path_byte_plain _ (hk _ hb)).2.1 rfl

/-- For a lower-case scheme, a plain host that `parseAuthority` accepts and a
plain key, `url.Parse` accepts the browse URL and reads it as the scheme, the
host and the path `/browse/<key>`. -/
theorem urlParse_browseText (scheme host key : GoString)
    (hscheme : isParsedScheme scheme = true)
    (hauth : parseAuthority host = some host)
    (hhost : isPlainHost host = true)
    (hkey : isPlainKey key = true) :
    urlParse (browseText scheme host key)
      = .ok { Scheme := scheme, Host := host, Path := go "/browse/" ++ key } := by
  have hcut := cutByte_no_sep 35 _ (browseText_no_fragment scheme host key hscheme hhost hkey)
  have hfrag : ∀ n, unescapeFuel false n [] = some [] := by
    intro n
    cases n <;> rfl
  simp only [urlParse, hcut, parseURL_browseText scheme host key hscheme hauth hhost hkey, hfrag]

set_option maxRecDepth 100000 in
/-- The URL with a scheme, a plain host and the path `/browse/<key>` of a
plain key is written as the browse URL. -/
theorem urlString_browse (scheme host key : GoString)
    (hscheme : scheme ≠ [])
    (hhost : isPlainHost host = true)
    (hkey : isPlainKey key = true) :
    urlString { Scheme := scheme, Host := host, Path := go "/browse/" ++ key }
      = browseText scheme host key := by
  have hh : ∀ b ∈ host, shouldEscapeHost b = false := by simpa [isPlainHost] using hhost
  have hk : ∀ b ∈ key, shouldEscapePath b = false := by simpa [isPlainKey] using hkey
  have h1 : go "://" = [58, 47, 47] := by decide
  have h2 : go "/browse/" = [47, 98, 114, 111, 119, 115, 101, 47] := by decide
  have hplain : ∀ b ∈ ([47, 98, 114, 111, 119, 115, 101, 47] : GoString),
      shouldEscapePath b = false := by decide
  have hesc : escapePath (go "/browse/" ++ key) = go "/browse/" ++ key := by
    apply escapeBytes_plain
    intro b hb
    rcases List.mem_append.1 hb with hb | hb
    · exact hplain b (h2 ▸ hb)
    · exact hk b hb
  have hhostesc : escapeBytes shouldEscapeHost host = host := escapeBytes_plain _ _ hh
  have hne : go "/browse/" ++ key ≠ [42] := by
    rw [h2]
    simp
  have hep : EscapedPath { Scheme := scheme, Host := host, Path := go "/browse/" ++ key }
      = go "/browse/" ++ key := by
    simp [EscapedPath, hne, hesc]
  simp only [urlString, authorityString, pathString, hep, hhostesc]
  simp [hscheme, browseText, h1, h2]

set_option maxRecDepth 100000 in
/-- The lower case of a scheme byte is a byte of a lower-case scheme, and the
lower case of a letter is a lower-case letter. -/
theorem lowerByte_scheme : ∀ b : Byte,
    ((isLowerASCII b || isUpperASCII b) = true → isLowerASCII (lowerByte b) = true)
    ∧ ((isLowerASCII b || isUpperASCII b || isDigitASCII b || b = 43 || b = 45 || b = 46) = true →
        (isLowerASCII (lowerByte b) || isDigitASCII (lowerByte b) || lowerByte b = 43
          || lowerByte b = 45 || lowerByte b = 46) = true) := by
  decide

/-- The scheme the loop of `getScheme` returns, when it is not empty, is what
was read before plus scheme bytes. -/
theorem getSchemeLoop_bytes (rawURL : GoString) (input : GoString) :
    ∀ (first : Bool) (acc scheme rest : GoString),
      getSchemeLoop rawURL first acc input = some (scheme, rest) → scheme ≠ [] →
      ∃ p, scheme = acc.reverse ++ p
        ∧ (∀ b ∈ p, (isLowerASCII b || isUpperASCII b || isDigitASCII b
            || b = 43 || b = 45 || b = 46) = true)
        ∧ (first = true → ∀ b ∈ p.head?, (isLowerASCII b || isUpperASCII b) = true) := by
  induction input with
  | nil =>
    intro first acc scheme rest h hne
    simp [getSchemeLoop] at h
    exact absurd h.1 hne
  | cons c s ih =>
    intro first acc scheme rest h hne
    rw [getSchemeLoop] at h
    split at h
    · rename_i hl
      obtain ⟨p, hp, hall, _⟩ := ih false (c :: acc) scheme rest h hne
      refine ⟨c :: p, by simpa using hp, ?_, ?_⟩
      · intro b hb
        rcases List.mem_cons.1 hb with rfl | hb
        · simp only [Bool.or_eq_true] at hl ⊢
          tauto
        · exact hall b hb
      · intro _ b hb
        simp only [List.head?_cons, Option.mem_def, Option.some.injEq] at hb
        exact hb ▸ hl
    · split at h
      · rename_i hd
        split at h
        · simp at h
          exact absurd h.1 hne
        · rename_i hf
          obtain ⟨p, hp, hall, _⟩ := ih false (c :: acc) scheme rest h hne
          refine ⟨c :: p, by simpa using hp, ?_, ?_⟩
          · intro b hb
            rcases List.mem_cons.1 hb with rfl | hb
            · simp only [Bool.or_eq_true] at hd ⊢
              tauto
            · exact hall b hb
          · intro hf'
            exact absurd hf' hf
      · split at h
        · split at h
          · simp at h
          · rename_i hf
            simp only [Option.some.injEq, Prod.mk.injEq] at h
            exact ⟨[], by simp [h.1], by simp, fun hf' => absurd hf' hf⟩
        · simp at h
          exact absurd h.1 hne

/-- The scheme `getScheme` returns, lower-cased, is empty or a lower-case
scheme. -/
theorem getScheme_parsed (rawURL scheme rest : GoString)
    (h : getScheme rawURL = some (scheme, rest)) (hne : lowerASCII scheme ≠ []) :
    isParsedScheme (lowerASCII scheme) = true := by
  have hne' : scheme ≠ [] := by
    intro e
    exact hne (by simp [e, lowerASCII])
  obtain ⟨p, hp, hall, hfirst⟩ := getSchemeLoop_bytes rawURL rawURL true [] scheme rest h hne'
  simp only [List.reverse_nil, List.nil_append] at hp
  subst hp
  cases scheme with
  | nil => exact absurd rfl hne'
  | cons c s =>
    simp only [lowerASCII, List.map_cons, isParsedScheme, Bool.and_eq_true, List.all_eq_true,
      List.mem_map]
    refine ⟨(lowerByte_scheme c).1 (hfirst rfl c (by simp)), ?_⟩
    rintro b ⟨a, ha, rfl⟩
    exact (lowerByte_scheme a).2 (hall a (List.mem_cons_of_mem _ ha))

/-- The host `parseAuthority` returns is the authority it was given. -/
theorem parseAuthority_eq (authority host : GoString) (h : parseAuthority authority = some host) :
    host = authority := by
  simp only [parseAuthority, parseHost] at h
  split at h
  · simp at h
  · split at h
    · simp at h
    · split at h <;> split at h <;> simp at h <;> exact h.symm

/-- What `setPath` leaves of the scheme and the host. -/
theorem setPath_scheme_host (u v : URL) (p : GoString) (h : setPath u p = some v) :
    v.Scheme = u.Scheme ∧ v.Host = u.Host := by
  simp only [setPath] at h
  split at h
  · simp at h
  · simp only [Option.some.injEq] at h
    subst h
    exact ⟨rfl, rfl⟩

/-- Every URL `url.Parse` returns with a scheme has a lower-case scheme, and
a host that `parseAuthority` accepts. -/
theorem urlParse_scheme_host (rawURL : GoString) (u : URL)
    (h : urlParse rawURL = .ok u) (hne : u.Scheme ≠ []) :
    isParsedScheme u.Scheme = true ∧ parseAuthority u.Host = some u.Host := by
  have hnil : parseAuthority [] = some [] := by decide
  simp only [urlParse] at h
  split at h
  · rename_i u0 frag hparse _
    simp only [Except.ok.injEq] at h
    subst h
    simp only at hne ⊢
    simp only [parseURL] at hparse
    split at hparse
    · simp at hparse
    · split at hparse
      · simp only [Option.some.injEq] at hparse
        subst hparse
        exact absurd rfl hne
      · split at hparse
        · simp at hparse
        · rename_i scheme rest hgs
          split at hparse
          · simp only [Option.some.injEq] at hparse
            subst hparse
            exact ⟨getScheme_parsed _ _ _ hgs hne, hnil⟩
          · split at hparse
            · simp at hparse
            · split at hparse
              · split at hparse
                · simp at hparse
                · rename_i host hauth
                  obtain ⟨e1, e2⟩ := setPath_scheme_host _ _ _ hparse
                  simp only at e1 e2
                  rw [e1] at hne ⊢
                  rw [e2]
                  have := parseAuthority_eq _ _ hauth
                  rw [← this] at hauth
                  exact ⟨getScheme_parsed _ _ _ hgs hne, hauth⟩
              · obtain ⟨e1, e2⟩ := setPath_scheme_host _ _ _ hparse
                simp only at e1 e2
                rw [e1] at hne ⊢
                rw [e2]
                exact ⟨getScheme_parsed _ _ _ hgs hne, hnil⟩
  · simp at h

/-! ## `Issues`: the issues it returns -/

/-- The loop of `Issues` over records that all carry a `fields` payload
returns, and appends one completed issue per record, in order. -/
theorem issuesLoop_fields_present (L : StdLib) (j : JIRA) (records : List (GoString × JIRAIssue)) :
    ∀ jiraIssues,
      issuesLoop L j (records.map (fun r => ⟨r.1, some r.2⟩)) jiraIssues
        = .ok (jiraIssues ++ records.map (fun r => withKeyAndURL L j r.1 r.2)) := by
  induction records with
  | nil =>
    intro jiraIssues
    simp [issuesLoop]
  | cons r rs ih =>
    intro jiraIssues
    simp only [List.map_cons, issuesLoop, ih]
    simp

/-- C7, amended: for every client, every project identifier that resolves to
a non-empty query string and every response with status 200 whose body
decodes to records that all carry a `fields` payload, `Issues` returns a nil
error and a list of issues that is a permutation of the records' issues, in
which each issue has the key of its record's envelope and, as `IssueURL`,
what `url.Parse` returns for `<scheme>://<host>/browse/<key>` (scheme and
host those of the client's endpoint, key the envelope key), its error
dropped: nil exactly when that text does not parse. With Go's `url.Parse`
and `URL.String`, and an endpoint whose scheme is a lower-case URL scheme
and whose host is an authority that `url.Parse` accepts and `URL.String`
writes unescaped, every record whose key a URL path holds unescaped has its
issue returned with that key and with an `IssueURL` that is present and
renders as exactly `<scheme>://<host>/browse/<key>`. -/
theorem Issues_key_and_browse_url (L : StdLib) (j : JIRA) (projectID : ProjectID)
    (query : GoString) (resp : Response) (records : List (GoString × JIRAIssue))
    (hq : j.getQueryString L projectID = .ok query) (hne : query ≠ [])
    (hc : j.client (L.URLString (searchURL j query)) = .ok resp)
    (hs : resp.StatusCode = 200)
    (hd : L.DecodeSearch resp.Body = .ok (records.map (fun r => ⟨r.1, some r.2⟩))) :
    ∃ issues,
      (j.Issues L projectID).outcome = .ok (some issues, none)
      ∧ issues.Perm (records.map (fun r => withKeyAndURL L j r.1 r.2))
      ∧ (∀ issue ∈ issues, ∃ r ∈ records,
          issue = withKeyAndURL L j r.1 r.2
          ∧ issue.Key = r.1
          ∧ issue.IssueURL
              = (L.Parse (j.endpoint.Scheme ++ go "://" ++ j.endpoint.Host
                  ++ go "/browse/" ++ r.1)).toOption)
      ∧ (∀ r ∈ records, ∃ issue ∈ issues,
          issue.Key = r.1
          ∧ issue.IssueURL
              = (L.Parse (j.endpoint.Scheme ++ go "://" ++ j.endpoint.Host
                  ++ go "/browse/" ++ r.1)).toOption)
      ∧ (∀ issue ∈ issues,
          issue.IssueURL = none
            ↔ ∃ err, L.Parse (j.endpoint.Scheme ++ go "://" ++ j.endpoint.Host
                  ++ go "/browse/" ++ issue.Key) = .error err)
      ∧ (L.Parse = urlParse → L.URLString = urlString →
          isParsedScheme j.endpoint.Scheme = true →
          parseAuthority j.endpoint.Host = some j.endpoint.Host →
          isPlainHost j.endpoint.Host = true →
          (∀ issue ∈ issues, isPlainKey issue.Key = true →
            ∃ u, issue.IssueURL = some u
              ∧ L.URLString u
                  = j.endpoint.Scheme ++ go "://" ++ j.endpoint.Host
                    ++ go "/browse/" ++ issue.Key)
          ∧ (∀ r ∈ records, isPlainKey r.1 = true →
              ∃ issue ∈ issues, ∃ u,
                issue = { r.2 with Key := r.1, IssueURL := some u }
                ∧ L.URLString u
                    = j.endpoint.Scheme ++ go "://" ++ j.endpoint.Host
                      ++ go "/browse/" ++ r.1)) := by
  have hloop := issuesLoop_fields_present L j records []
  simp only [List.nil_append] at hloop
  have hmem : ∀ issue,
      issue ∈ insertionSorted (fun a b => a.CreatedAt.Before b.CreatedAt)
          (records.map (fun r => withKeyAndURL L j r.1 r.2))
        ↔ ∃ r ∈ records, issue = withKeyAndURL L j r.1 r.2 := by
    intro issue
    rw [(insertionSorted_perm _ _).mem_iff, List.mem_map]
    constructor
    · rintro ⟨r, hr, rfl⟩
      exact ⟨r, hr, rfl⟩
    · rintro ⟨r, hr, rfl⟩
      exact ⟨r, hr, rfl⟩
  refine ⟨insertionSorted (fun a b => a.CreatedAt.Before b.CreatedAt)
      (records.map (fun r => withKeyAndURL L j r.1 r.2)), ?_, insertionSorted_perm _ _,
      ?_, ?_, ?_, ?_⟩
  · simp [JIRA.Issues, hq, hne, hc, hs, issuesDecoded, hd, hloop, JIRAIssues_sort_eq]
  · intro issue hi
    obtain ⟨r, hr, rfl⟩ := (hmem issue).1 hi
    exact ⟨r, hr, rfl, rfl, rfl⟩
  · intro r hr
    exact ⟨withKeyAndURL L j r.1 r.2, (hmem _).2 ⟨r, hr, rfl⟩, rfl, rfl⟩
  · intro issue hi
    obtain ⟨r, _, rfl⟩ := (hmem issue).1 hi
    show (L.Parse (browseText j.endpoint.Scheme j.endpoint.Host r.1)).toOption = none
      ↔ ∃ err, L.Parse (browseText j.endpoint.Scheme j.endpoint.Host r.1) = .error err
    cases L.Parse (browseText j.endpoint.Scheme j.endpoint.Host r.1) with
    | error err => simp [Except.toOption]
    | ok u => simp [Except.toOption]
  · intro hP hS hscheme hauth hhost
    have hsne : j.endpoint.Scheme ≠ [] := by
      intro e
      rw [e] at hscheme
      simp [isParsedScheme] at hscheme
    have hurl : ∀ key, isPlainKey key = true →
        (L.Parse (browseText j.endpoint.Scheme j.endpoint.Host key)).toOption
            = some { Scheme := j.endpoint.Scheme, Host := j.endpoint.Host,
                     Path := go "/browse/" ++ key }
          ∧ L.URLString { Scheme := j.endpoint.Scheme, Host := j.endpoint.Host,
                          Path := go "/browse/" ++ key }
              = browseText j.endpoint.Scheme j.endpoint.Host key := by
      intro key hkey
      rw [hP, hS, urlParse_browseText _ _ _ hscheme hauth hhost hkey,
        urlString_browse _ _ _ hsne hhost hkey]
      exact ⟨rfl, rfl⟩
    refine ⟨?_, ?_⟩
    · intro issue hi hkey
      obtain ⟨r, _, rfl⟩ := (hmem issue).1 hi
      exact ⟨_, (hurl r.1 hkey).1, (hurl r.1 hkey).2⟩
    · intro r hr hkey
      refine ⟨withKeyAndURL L j r.1 r.2, (hmem _).2 ⟨r, hr, rfl⟩, _, ?_, (hurl r.1 hkey).2⟩
      simp only [withKeyAndURL, (hurl r.1 hkey).1]

set_option maxRecDepth 100000 in
/-- C7, amended, on a response with three records: the client of
`https://jira.example.com:8443/rest/api/2` asks for the issues of `projectb`
and is answered with the records `PB-3`, `PB-1` and `PA_2.x`, the first two
with another key inside `fields`. The issues come back in the order of their
creation times, each with the key of its envelope and a browse URL that
renders as `https://jira.example.com:8443/browse/<key>`. -/
theorem Issues_key_and_browse_url_witness :
    (threeIssuesClient.getQueryString goStdKeys (.string (go "projectb"))
        = .ok (go "jql=project%3D101")
      ∧ go "jql=project%3D101" ≠ []
      ∧ threeIssuesClient.client
          (goStdKeys.URLString (searchURL threeIssuesClient (go "jql=project%3D101")))
          = .ok { StatusCode := 200, Status := formatNat 200, Body := bodyThreeIssues }
      ∧ goStdKeys.DecodeSearch bodyThreeIssues
          = .ok (threeRecords.map (fun r => ⟨r.1, some r.2⟩)))
    ∧ (∃ issues,
        (threeIssuesClient.Issues goStdKeys (.string (go "projectb"))).outcome
          = .ok (some issues, none)
        ∧ issues.Perm (threeRecords.map (fun r => withKeyAndURL goStdKeys threeIssuesClient r.1 r.2))
        ∧ (∀ issue ∈ issues, ∃ r ∈ threeRecords,
            issue = withKeyAndURL goStdKeys threeIssuesClient r.1 r.2
            ∧ issue.Key = r.1
            ∧ issue.IssueURL
                = (goStdKeys.Parse (threeIssuesClient.endpoint.Scheme ++ go "://"
                    ++ threeIssuesClient.endpoint.Host ++ go "/browse/" ++ r.1)).toOption)
        ∧ (∀ r ∈ threeRecords, ∃ issue ∈ issues,
            issue.Key = r.1
            ∧ issue.IssueURL
                = (goStdKeys.Parse (threeIssuesClient.endpoint.Scheme ++ go "://"
                    ++ threeIssuesClient.endpoint.Host ++ go "/browse/" ++ r.1)).toOption)
        ∧ (∀ issue ∈ issues,
            issue.IssueURL = none
              ↔ ∃ err, goStdKeys.Parse (threeIssuesClient.endpoint.Scheme ++ go "://"
                    ++ threeIssuesClient.endpoint.Host ++ go "/browse/" ++ issue.Key)
                  = .error err)
        ∧ (goStdKeys.Parse = urlParse → goStdKeys.URLString = urlString →
            isParsedScheme threeIssuesClient.endpoint.Scheme = true →
            parseAuthority threeIssuesClient.endpoint.Host = some threeIssuesClient.endpoint.Host →
            isPlainHost threeIssuesClient.endpoint.Host = true →
            (∀ issue ∈ issues, isPlainKey issue.Key = true →
              ∃ u, issue.IssueURL = some u
                ∧ goStdKeys.URLString u
                    = threeIssuesClient.endpoint.Scheme ++ go "://"
                      ++ threeIssuesClient.endpoint.Host ++ go "/browse/" ++ issue.Key)
            ∧ (∀ r ∈ threeRecords, isPlainKey r.1 = true →
                ∃ issue ∈ issues, ∃ u,
                  issue = { r.2 with Key := r.1, IssueURL := some u }
                  ∧ goStdKeys.URLString u
                      = threeIssuesClient.endpoint.Scheme ++ go "://"
                        ++ threeIssuesClient.endpoint.Host ++ go "/browse/" ++ r.1)))
    ∧ (goStdKeys.Parse = urlParse ∧ goStdKeys.URLString = urlString
        ∧ isParsedScheme threeIssuesClient.endpoint.Scheme = true
        ∧ parseAuthority threeIssuesClient.endpoint.Host = some threeIssuesClient.endpoint.Host
        ∧ isPlainHost threeIssuesClient.endpoint.Host = true
        ∧ ∀ r ∈ threeRecords, isPlainKey r.1 = true)
    ∧ (threeIssuesClient.Issues goStdKeys (.string (go "projectb"))).outcome
        = .ok (some
            [ { issueOf (go "PB-1") (go "userB") (march2015 1) with
                IssueURL := some { Scheme := go "https", Host := go "jira.example.com:8443",
                                   Path := go "/browse/PB-1" } },
              { issueOf (go "PA_2.x") [] (march2015 4) with
                IssueURL := some { Scheme := go "https", Host := go "jira.example.com:8443",
                                   Path := go "/browse/PA_2.x" } },
              { issueOf (go "PB-3") (go "userA") (march2015 6) with
                Summary := go "Third"
                IssueURL := some { Scheme := go "https", Host := go "jira.example.com:8443",
                                   Path := go "/browse/PB-3" } } ], none)
    ∧ (threeIssuesClient.Issues goStdKeys (.string (go "projectb"))).outcome.map
          (fun r => r.1.map (fun issues =>
            issues.map (fun issue => (issue.Key, issue.IssueURL.map urlString))))
        = .ok (some [(go "PB-1", some (go "https://jira.example.com:8443/browse/PB-1")),
            (go "PA_2.x", some (go "https://jira.example.com:8443/browse/PA_2.x")),
            (go "PB-3", some (go "https://jira.example.com:8443/browse/PB-3"))]) :=
  ⟨⟨by decide, by decide, rfl, by decide⟩,
    Issues_key_and_browse_url goStdKeys threeIssuesClient (.string (go "projectb"))
      (go "jql=project%3D101")
      { StatusCode := 200, Status := formatNat 200, Body := bodyThreeIssues }
      threeRecords (by decide) (by decide) rfl rfl (by decide),
    ⟨rfl, rfl, by decide, by decide, by decide, by decide⟩,
    by decide, by decide⟩

/-- C7 as stated fails: a search response with status 200 and one record,
with the key `%zz` and a `fields` payload, makes `Issues` return, with a nil
error, the one issue with that key and a nil `IssueURL`, the text
`http://jira.com/browse/%zz` being no URL. -/
theorem Issues_browse_url_absent :
    goStd.DecodeSearch bodyOddKey = .ok [{ Key := go "%zz", JIRAIssue := some (issueOf [] [] 0) }]
    ∧ goStd.Parse (go "http://jira.com/browse/%zz") = .error (.library (go "parse error"))
    ∧ ((clientOf (serve 200 bodyOddKey) []).Issues goStd (.int 101)).outcome
        = .ok (some [{ issueOf (go "%zz") [] 0 with IssueURL := none }], none) := by
  refine ⟨by decide, by decide, by decide⟩

set_option maxRecDepth 100000 in
/-- With a key that a URL path does not hold unescaped, or an endpoint
without a scheme, the browse URL may differ from the text or be absent. For
the key `a b` the text parses, and the `IssueURL` renders with the space
escaped, as `http://jira.com/browse/a%20b`. For a client whose endpoint has a
host and no scheme the text `://jira.com/browse/PB-1` has no scheme, and the
`IssueURL` is nil. -/
theorem Issues_browse_url_escaped_or_absent :
    goStdKeys.DecodeSearch bodySpaceKey
        = .ok [{ Key := go "a b", JIRAIssue := some (issueOf [] [] 0) }]
    ∧ isPlainKey (go "a b") = false
    ∧ ((clientOf (serve 200 bodySpaceKey) []).Issues goStdKeys (.int 101)).outcome.map
          (fun r => r.1.map (fun issues =>
            issues.map (fun issue => (issue.Key, issue.IssueURL.map urlString))))
        = .ok (some [(go "a b", some (go "http://jira.com/browse/a%20b"))])
    ∧ isParsedScheme [] = false
    ∧ (JIRA.Issues goStd
          { client := serve 200 bodyOneIssue, endpoint := { Host := go "jira.com" },
            projects := [] } (.int 101)).outcome
        = .ok (some [{ issueOf (go "PB-1") [] 0 with IssueURL := none }], none) := by
  refine ⟨by decide, by decide, by decide, by decide, by decide⟩

/-- The endpoint of a client that `NewJIRA` returns is the URL that
`url.Parse` gave for the address, with the credentials. With Go's `url.Parse`
its scheme, when it has one, is a lower-case URL scheme, and its host is an
authority that `url.Parse` accepts. -/
theorem NewJIRA_endpoint_parsed (L : StdLib) (defaultClient : Client) (info : Option Userinfo)
    (jiraURL : GoString) (client : Option Client) (j : JIRA) (err : Option GoError)
    (h : (NewJIRA L defaultClient info jiraURL client).outcome = .ok (some j, err)) :
    (∃ u, L.Parse jiraURL = .ok u ∧ j.endpoint = { u with User := info })
    ∧ (L.Parse = urlParse → j.endpoint.Scheme ≠ [] →
        isParsedScheme j.endpoint.Scheme = true
        ∧ parseAuthority j.endpoint.Host = some j.endpoint.Host) := by
  have hu : ∃ u, L.Parse jiraURL = .ok u ∧ j.endpoint = { u with User := info } := by
    simp only [NewJIRA] at h
    split at h
    · simp at h
    · rename_i u hu
      refine ⟨u, hu, ?_⟩
      simp only at h
      split at h
      · simp at h
      · split at h
        · simp at h
        · simp only [newJIRADecoded] at h
          split at h
          · simp at h
          · split at h
            · simp at h
            · simp only [Except.ok.injEq, Prod.mk.injEq, Option.some.injEq] at h
              rw [← h.1]
  refine ⟨hu, ?_⟩
  intro hP hne
  obtain ⟨u, hparse, he⟩ := hu
  rw [hP] at hparse
  rw [he] at hne ⊢
  exact urlParse_scheme_host jiraURL u hparse hne

/-! ## `JIRAUser.String` -/

/-- Leading bytes are dropped from the first part of a text when that part
holds another byte. -/
theorem trimLeftByte_append (c : Byte) (s t : GoString) (h : ∃ b ∈ s, b ≠ c) :
    trimLeftByte c (s ++ t) = trimLeftByte c s ++ t := by
  induction s with
  | nil =>
    obtain ⟨b, hb, _⟩ := h
    exact absurd hb (List.not_mem_nil b)
  | cons a s ih =>
    by_cases ha : a = c
    · subst ha
      obtain ⟨b, hb, hbc⟩ := h
      rcases List.mem_cons.1 hb with rfl | hb
      · exact absurd rfl hbc
      · simp [trimLeftByte, ih ⟨b, hb, hbc⟩]
    · simp [trimLeftByte, ha]

/-- Nothing is dropped at the end of a text that ends with another byte. -/
theorem trimRightByte_append_ne (c d : Byte) (s : GoString) (h : d ≠ c) :
    trimRightByte c (s ++ [d]) = s ++ [d] := by
  simp [trimRightByte, trimLeftByte, h]

/-- A text that holds another byte is not trimmed to nothing. -/
theorem trimLeftByte_ne_nil (c : Byte) (s : GoString) (h : ∃ b ∈ s, b ≠ c) :
    trimLeftByte c s ≠ [] := by
  induction s with
  | nil =>
    obtain ⟨b, hb, _⟩ := h
    exact absurd hb (List.not_mem_nil b)
  | cons a s ih =>
    by_cases ha : a = c
    · subst ha
      obtain ⟨b, hb, hbc⟩ := h
      rcases List.mem_cons.1 hb with rfl | hb
      · exact absurd rfl hbc
      · simpa [trimLeftByte] using ih ⟨b, hb, hbc⟩
    · simp [trimLeftByte, ha]

/-- A text trimmed on the left does not begin with the trimmed byte. -/
theorem trimLeftByte_head (c : Byte) (s : GoString) : ∀ rest, trimLeftByte c s ≠ c :: rest := by
  induction s with
  | nil =>
    intro rest h
    simp [trimLeftByte] at h
  | cons a s ih =>
    intro rest h
    by_cases ha : a = c
    · simp only [trimLeftByte, ha, if_true] at h
      exact ih rest h
    · simp only [trimLeftByte, ha, if_false, List.cons.injEq] at h
      exact h.1.elim

/-- C8, amended: for every name and email, `JIRAUser.String()` is the
title-cased name, ` (`, the email and `)`, with the leading and trailing
space characters (U+0020, and no other white space) removed; that is the
title-cased name and ` (` without their leading spaces, then the email and
`)` untouched, a text that neither begins nor ends with a space. An empty
name renders as exactly `(<email>)` for every email; an empty email renders as
`<Name> ()`, exactly so when the title-cased name begins with a byte other
than a space; the name `userA` with the email `userA@jira.com` renders as
`UserA (userA@jira.com)`. -/
theorem JIRAUser_String_trims_spaces (L : StdLib) (name email userURL : GoString) :
    JIRAUser.String L ⟨name, email, userURL⟩
        = TrimByte (L.Title name ++ go " (" ++ email ++ go ")") 32
    ∧ JIRAUser.String L ⟨name, email, userURL⟩
        = trimLeftByte 32 (L.Title name ++ go " (") ++ email ++ go ")"
    ∧ (∀ rest, JIRAUser.String L ⟨name, email, userURL⟩ ≠ 32 :: rest)
    ∧ (JIRAUser.String L ⟨name, email, userURL⟩).getLast? = some 41
    ∧ (name = [] → JIRAUser.String L ⟨name, email, userURL⟩ = go "(" ++ email ++ go ")")
    ∧ (email = [] → JIRAUser.String L ⟨name, email, userURL⟩
        = trimLeftByte 32 (L.Title name ++ go " ()"))
    ∧ (email = [] → ∀ c rest, L.Title name = c :: rest → c ≠ 32 →
        JIRAUser.String L ⟨name, email, userURL⟩ = L.Title name ++ go " ()")
    ∧ JIRAUser.String L ⟨go "userA", go "userA@jira.com", userURL⟩
        = go "UserA (userA@jira.com)" := by
  have hopen : go " (" = [32, 40] := by decide
  have hclose : go ")" = [41] := by decide
  have hboth : go " ()" = [32, 40, 41] := by decide
  have key : ∀ (title mail : GoString),
      TrimByte (title ++ go " (" ++ mail ++ go ")") 32
        = trimLeftByte 32 (title ++ go " (") ++ mail ++ go ")" := by
    intro title mail
    have h1 : trimLeftByte 32 (title ++ go " (" ++ mail ++ go ")")
        = trimLeftByte 32 (title ++ go " (") ++ (mail ++ go ")") := by
      rw [List.append_assoc (title ++ go " (")]
      apply trimLeftByte_append
      refine ⟨40, ?_, by decide⟩
      simp [hopen]
    rw [TrimByte, h1, hclose, ← List.append_assoc]
    exact trimRightByte_append_ne 32 41 _ (by decide)
  have hstring : ∀ n e, JIRAUser.String L ⟨n, e, userURL⟩
      = trimLeftByte 32 (L.Title n ++ go " (") ++ e ++ go ")" := fun n e => key _ _
  refine ⟨rfl, hstring _ _, ?_, ?_, ?_, ?_, ?_, ?_⟩
  · intro rest h
    rw [hstring] at h
    cases hl : trimLeftByte 32 (L.Title name ++ go " (") with
    | nil =>
      exact trimLeftByte_ne_nil 32 _ ⟨40, by simp [hopen], by decide⟩ hl
    | cons a s =>
      rw [hl] at h
      simp only [List.cons_append, List.cons.injEq] at h
      exact trimLeftByte_head 32 _ s (h.1 ▸ hl)
  · rw [hstring, hclose]
    simp
  · intro hn
    subst hn
    rw [hstring, L.Title_ascii [] rfl]
    have : trimLeftByte 32 (titleASCII [] ++ go " (") = go "(" := by decide
    rw [this]
  · intro he
    subst he
    rw [hstring, hopen, hclose, hboth]
    have h2 : L.Title name ++ [32, 40, 41] = (L.Title name ++ [32, 40]) ++ [41] := by simp
    rw [h2, trimLeftByte_append 32 _ [41] ⟨40, by simp, by decide⟩]
    simp
  · intro he c rest ht hc
    subst he
    rw [hstring, ht, hopen, hclose, hboth]
    simp [trimLeftByte, hc]
  · rw [hstring, L.Title_ascii (go "userA") (by decide)]
    decide

/-- C8, amended, for the users of `TestUsersString`. -/
theorem JIRAUser_String_trims_spaces_witness :
    JIRAUser.String goStd ⟨[], go "userB@jira.com", []⟩ = go "(" ++ go "userB@jira.com" ++ go ")"
    ∧ JIRAUser.String goStd ⟨go "userC", [], []⟩ = goStd.Title (go "userC") ++ go " ()"
    ∧ JIRAUser.String goStd ⟨go "userC", [], []⟩ = go "UserC ()"
    ∧ JIRAUser.String goStd ⟨[], go "userB@jira.com", []⟩ = go "(userB@jira.com)" :=
  ⟨(JIRAUser_String_trims_spaces goStd [] (go "userB@jira.com") []).2.2.2.2.1 rfl,
    (JIRAUser_String_trims_spaces goStd (go "userC") [] []).2.2.2.2.2.2.1 rfl 85 (go "serC")
      (by decide) (by decide),
    by decide, by decide⟩

/-- C8 as stated fails: for a name that begins with a tab, `String()` keeps
the tab, a white-space character, at the head of the text, where the claim
has it removed. -/
theorem JIRAUser_String_keeps_tab :
    JIRAUser.String goStd ⟨go "\tbob", go "bob@jira.com", []⟩ = go "\tBob (bob@jira.com)"
    ∧ specUserString goStd ⟨go "\tbob", go "bob@jira.com", []⟩ = go "Bob (bob@jira.com)"
    ∧ JIRAUser.String goStd ⟨go "\tbob", go "bob@jira.com", []⟩
        ≠ specUserString goStd ⟨go "\tbob", go "bob@jira.com", []⟩
    ∧ (JIRAUser.String goStd ⟨go "\tbob", go "bob@jira.com", []⟩).head?.map isSpaceASCII
        = some true := by
  refine ⟨by decide, by decide, by decide, by decide⟩

/-! ## The `issues` command -/

/-- The loop of the `issues` action adds the issues that pass the three
tests, in order, and counts them. -/
theorem issuesActionLoop_spec (L : StdLib) (assignee reporter status : GoString)
    (issues : List JIRAIssue) :
    ∀ r : Report,
      issuesActionLoop L assignee reporter status issues r
        = { displayed := r.displayed
              ++ issues.filter (passesFilters L assignee reporter status),
            total := r.total
              + (issues.filter (passesFilters L assignee reporter status)).length } := by
  induction issues with
  | nil =>
    intro r
    simp [issuesActionLoop]
  | cons issue rest ih =>
    intro r
    by_cases h : passesFilters L assignee reporter status issue = true
    · simp [issuesActionLoop, h, ih, List.filter_cons, Nat.add_assoc, Nat.add_comm 1]
    · simp [issuesActionLoop, h, ih, List.filter_cons]

/-- What the `issues` action does: it displays the fetched issues that pass
the three tests of the loop, in order, and the total it logs is the number of
issues it displayed; when the filter values are already in lower case, those
tests are the case-insensitive match of the specification. -/
theorem issuesAction_spec (L : StdLib) (assignee reporter status : GoString)
    (issues : List JIRAIssue) :
    (issuesAction L assignee reporter status issues).displayed
        = issues.filter (passesFilters L assignee reporter status)
    ∧ (issuesAction L assignee reporter status issues).total
        = (issuesAction L assignee reporter status issues).displayed.length
    ∧ (L.ToLower assignee = assignee → L.ToLower reporter = reporter →
        L.ToLower status = status →
        ∀ issue, passesFilters L assignee reporter status issue
          = specMatches L assignee reporter status issue) := by
  refine ⟨?_, ?_, ?_⟩
  · simp [issuesAction, issuesActionLoop_spec]
  · simp [issuesAction, issuesActionLoop_spec]
  · intro ha hr hs issue
    simp only [passesFilters, specMatches, ha, hr, hs]
    by_cases h1 : assignee = [] <;> by_cases h2 : reporter = [] <;> by_cases h3 : status = []
      <;> simp [h1, h2, h3]

/-- C10, where the code departs from it: the one fetched issue is assigned to
`UserA`. With the filter value `usera` the issue is displayed and counted;
with the filter value `UserA`, which differs only in letter case and occurs in
the assignee's name, nothing is displayed and the total is 0. -/
theorem issuesAction_filter_case_sensitive :
    issuesAction goStd (go "usera") [] [] [issueOf (go "PRJ-1") (go "UserA") 0]
        = { displayed := [issueOf (go "PRJ-1") (go "UserA") 0], total := 1 }
    ∧ issuesAction goStd (go "UserA") [] [] [issueOf (go "PRJ-1") (go "UserA") 0]
        = { displayed := [], total := 0 }
    ∧ Contains (go "UserA") (go "UserA") = true
    ∧ specMatches goStd (go "UserA") [] [] (issueOf (go "PRJ-1") (go "UserA") 0) = true
    ∧ specMatches goStd (go "usera") [] [] (issueOf (go "PRJ-1") (go "UserA") 0) = true := by
  refine ⟨by decide, by decide, by decide, by decide, by decide⟩

/-! ## `Issues`: one issue per record, and the record without `fields` -/

/-- The loop of `Issues` over records that all carry a `fields` payload
returns, and appends as many issues as there are records. -/
theorem issuesLoop_length (L : StdLib) (j : JIRA) (records : List SearchRecord)
    (h : ∀ r ∈ records, r.JIRAIssue ≠ none) :
    ∀ jiraIssues, ∃ collected,
      issuesLoop L j records jiraIssues = .ok (jiraIssues ++ collected)
      ∧ collected.length = records.length := by
  induction records with
  | nil =>
    intro jiraIssues
    exact ⟨[], by simp [issuesLoop], rfl⟩
  | cons r rs ih =>
    intro jiraIssues
    have hr := h r (List.mem_cons_self _ _)
    cases hji : r.JIRAIssue with
    | none => exact absurd hji hr
    | some ji =>
      obtain ⟨collected, hloop, hlen⟩ :=
        ih (fun q hq => h q (List.mem_cons_of_mem _ hq))
          (jiraIssues ++ [withKeyAndURL L j r.Key ji])
      refine ⟨withKeyAndURL L j r.Key ji :: collected, ?_, by simp [hlen]⟩
      simp only [issuesLoop, hji, hloop]
      simp

/-- The loop of `Issues` panics when a record has no `fields` payload,
wherever the record stands. -/
theorem issuesLoop_nil_fields (L : StdLib) (j : JIRA) (records : List SearchRecord)
    (h : ∃ r ∈ records, r.JIRAIssue = none) :
    ∀ jiraIssues, issuesLoop L j records jiraIssues = .error .nilDereference := by
  induction records with
  | nil =>
    obtain ⟨r, hr, _⟩ := h
    exact absurd hr (List.not_mem_nil r)
  | cons r rs ih =>
    intro jiraIssues
    cases hji : r.JIRAIssue with
    | none => simp [issuesLoop, hji]
    | some ji =>
      obtain ⟨q, hq, hnone⟩ := h
      rcases List.mem_cons.1 hq with rfl | hq
      · rw [hji] at hnone
        cases hnone
      · simp only [issuesLoop, hji]
        exact ih ⟨q, hq, hnone⟩ _

/-- What `Issues` does with a response of status 200 whose body decodes to
`records`, for an identifier that resolves to a non-empty query string: when
every record carries a `fields` payload it returns a nil error and as many
issues as there are records (none, in a non-nil slice, for no record); when
some record carries none it panics. -/
theorem Issues_record_count (L : StdLib) (j : JIRA) (projectID : ProjectID)
    (query : GoString) (resp : Response) (records : List SearchRecord)
    (hq : j.getQueryString L projectID = .ok query) (hne : query ≠ [])
    (hc : j.client (L.URLString (searchURL j query)) = .ok resp)
    (hs : resp.StatusCode = 200)
    (hd : L.DecodeSearch resp.Body = .ok records) :
    ((∀ r ∈ records, r.JIRAIssue ≠ none) →
      ∃ issues, (j.Issues L projectID).outcome = .ok (some issues, none)
        ∧ issues.length = records.length)
    ∧ (records = [] → (j.Issues L projectID).outcome = .ok (some [], none))
    ∧ ((∃ r ∈ records, r.JIRAIssue = none) →
        (j.Issues L projectID).outcome = .error .nilDereference) := by
  refine ⟨?_, ?_, ?_⟩
  · intro hall
    obtain ⟨collected, hloop, hlen⟩ := issuesLoop_length L j records hall []
    simp only [List.nil_append] at hloop
    refine ⟨insertionSorted (fun a b => a.CreatedAt.Before b.CreatedAt) collected, ?_, ?_⟩
    · simp [JIRA.Issues, hq, hne, hc, hs, issuesDecoded, hd, hloop, JIRAIssues_sort_eq]
    · rw [(insertionSorted_perm _ collected).length_eq, hlen]
  · intro hnil
    subst hnil
    simp [JIRA.Issues, hq, hne, hc, hs, issuesDecoded, hd, issuesLoop, JIRAIssues_sort_eq,
      insertionSorted]
  · intro hsome
    simp [JIRA.Issues, hq, hne, hc, hs, issuesDecoded, hd,
      issuesLoop_nil_fields L j records hsome []]

/-- C11, where the code departs from it: a search response with status 200
whose body, `{"issues":[{"key":"PB-1","fields":null}]}`, decodes to one
record without a `fields` payload makes `Issues` panic, for the identifier
101, after its one request: the record's issue is a nil pointer and the loop
writes its `IssueURL`. No error and no issue is returned, where the claim has
one issue per record. An envelope with no record gives an empty, non-nil
list and a nil error. -/
theorem Issues_null_fields_panics :
    goStd.DecodeSearch bodyNullFields = .ok [{ Key := go "PB-1", JIRAIssue := none }]
    ∧ (clientOf (serve 200 bodyNullFields) []).getQueryString goStd (.int 101)
        = .ok (go "jql=project%3D101")
    ∧ ((clientOf (serve 200 bodyNullFields) []).Issues goStd (.int 101)).requests
        = [go "http://jira.com/search?jql=project%3D101"]
    ∧ ((clientOf (serve 200 bodyNullFields) []).Issues goStd (.int 101)).outcome
        = .error .nilDereference
    ∧ goStd.DecodeSearch bodyNoIssues = .ok []
    ∧ ((clientOf (serve 200 bodyNoIssues) []).Issues goStd (.int 101)).outcome
        = .ok (some [], none) := by
  refine ⟨by decide, by decide, by decide, by decide, by decide, by decide⟩

end Jiragoli
